import Mathlib

/-!
# GoNews aggregator: collector, fetch round, storage, configuration and read API

A shallow embedding of the Go packages `internal/app`, `internal/rss`,
`internal/storage`, `internal/config` and `internal/api`, followed by the
theorems about them.

Conventions of the embedding:

* Go `int`, `int64` and `time.Duration` are `Int`, wrapped explicitly to the
  signed 64-bit range where the source multiplies (`wrapInt64`).
* `time.Time` is `Time`: an instant in nanoseconds plus the name of its location.
* Calls that leave the program (HTTP, XML decoding, `time.Parse`, the clock, the
  database driver) are parameters: their results are given, what the source does
  with the results is translated.
* Goroutines communicating over unbuffered channels are an explicit transition
  system (`Round`), driven by an arbitrary scheduler.
-/

namespace GoNews

/-! ## Data model (`internal/storage`, `internal/rss`) -/

/-- A `time.Time` value: the instant (nanoseconds since the epoch) and its location. -/
structure Time where
  nanos : Int
  loc : String
deriving DecidableEq, Repr

/-- The zero value `time.Time{}`. -/
def Time.zero : Time := { nanos := -62135596800000000000, loc := "UTC" }

/-- `t.UTC()`: the same instant with the location set to UTC. -/
def Time.UTC (t : Time) : Time := { t with loc := "UTC" }

/-- `storage.Post`. -/
structure Post where
  ID : Int
  Title : String
  Description : String
  Link : String
  PublishedAt : Time
  CreatedAt : Time
deriving DecidableEq, Repr

/-- `rss.Item`. -/
structure Item where
  Title : String
  Description : String
  Link : String
  PublishedAt : Time
deriving DecidableEq, Repr

/-- The interface `storage.Store` as far as the collector uses it: `SavePosts`
takes the store's state and a batch and gives the new state and the error
(`none` is Go's `nil`). -/
structure Store (σ : Type) where
  SavePosts : σ → List Post → σ × Option String

/-! ## The collector (`App.collect`) -/

/-- A line written to the logger by `collect`. -/
inductive LogEntry where
  | savePosts (err : String)
  | fetchFeed (err : String)
deriving DecidableEq, Repr

/-- What one `select` in `collect` can receive. -/
inductive Recv where
  | post (p : Post)
  | postsClosed
  | err (e : String)
  | errClosed
  | ctxDone
deriving DecidableEq, Repr

/-- Is the message a receive on `postsCh` (a value or the close)? -/
def Recv.onPostsCh : Recv → Bool
  | .post _ => true
  | .postsClosed => true
  | _ => false

/-- The local state of `collect`: the store it writes to, the buffer `batch`,
whether `postsCh` and `errCh` are still non-nil, the log, whether the function
returned through `ctx.Done()`, and the batches handed to `SavePosts` so far. -/
structure Collector (σ : Type) where
  store : σ
  batch : List Post
  postsOpen : Bool
  errOpen : Bool
  logs : List LogEntry
  cancelled : Bool
  calls : List (List Post)

/-- The constant `batchSize` of `collect`. -/
def batchSize : Nat := 25

/-- The state in which `collect` starts. -/
def Collector.init {σ : Type} (st : σ) : Collector σ :=
  { store := st, batch := [], postsOpen := true, errOpen := true, logs := [],
    cancelled := false, calls := [] }

/-- The closure `flush` of `collect`. -/
def flush {σ : Type} (S : Store σ) (c : Collector σ) : Collector σ :=
  if c.batch.length = 0 then c
  else
    let r := S.SavePosts c.store c.batch
    let logs := match r.2 with
      | some e => c.logs ++ [LogEntry.savePosts e]
      | none => c.logs
    { c with store := r.1, logs := logs, calls := c.calls ++ [c.batch], batch := [] }

/-- The loop condition and return of `collect`: it runs while a channel is
non-nil and the context case was not taken. -/
def Collector.running {σ : Type} (c : Collector σ) : Bool :=
  (c.postsOpen || c.errOpen) && !c.cancelled

/-- One iteration of the loop of `collect`, for the message its `select`
received. A receive on a channel variable that is already nil cannot happen
(a nil channel is never ready), the state is then left as it is. -/
def select {σ : Type} (S : Store σ) (c : Collector σ) : Recv → Collector σ
  | .post p =>
    if c.postsOpen then
      let c1 := { c with batch := c.batch ++ [p] }
      if c1.batch.length ≥ batchSize then flush S c1 else c1
    else c
  | .postsClosed =>
    if c.postsOpen then flush S { c with postsOpen := false } else c
  | .err e =>
    if c.errOpen then { c with logs := c.logs ++ [LogEntry.fetchFeed e] } else c
  | .errClosed =>
    if c.errOpen then { c with errOpen := false } else c
  | .ctxDone => { c with cancelled := true }

/-- The function `collect` on the messages its channels deliver, in the order
in which the `select` takes them. The function returns as soon as the loop
condition fails; when the messages run out before that it is blocked in
`select`, which is the state returned. -/
def collect {σ : Type} (S : Store σ) : Collector σ → List Recv → Collector σ
  | c, [] => c
  | c, m :: ms => if c.running then collect S (select S c m) ms else c

/-- The `i`-th chunk of size `k` of a list. -/
def chunkAt {α : Type} (k : Nat) (l : List α) (i : Nat) : List α :=
  (l.drop (k * i)).take k

/-- The list cut into consecutive chunks of `k`: `ceil (n / k)` chunks, the
last one holding the remainder. -/
def chunksOf {α : Type} (k : Nat) (l : List α) : List (List α) :=
  (List.range ((l.length + (k - 1)) / k)).map (chunkAt k l)

/-! ## The feed fetcher (`internal/rss`) -/

/-- The struct `rssItem`. -/
structure rssItem where
  Title : String
  Description : String
  Link : String
  PubDate : String
deriving DecidableEq, Repr

/-- The struct `rssFeed`; `Items` is the field `Channel.Items`. -/
structure rssFeed where
  Items : List rssItem
deriving DecidableEq, Repr

/-- The layout `time.RFC1123Z`. -/
def RFC1123Z : String := "Mon, 02 Jan 2006 15:04:05 -0700"
/-- The layout `time.RFC1123`. -/
def RFC1123 : String := "Mon, 02 Jan 2006 15:04:05 MST"
/-- The layout `time.RFC822Z`. -/
def RFC822Z : String := "02 Jan 06 15:04 -0700"
/-- The layout `time.RFC822`. -/
def RFC822 : String := "02 Jan 06 15:04 MST"
/-- The layout `time.RFC3339`. -/
def RFC3339 : String := "2006-01-02T15:04:05Z07:00"

/-- The slice `layouts` of `parsePubDate`. -/
def layouts : List String := [RFC1123Z, RFC1123, RFC822Z, RFC822, RFC3339]

/-- The loop of `parsePubDate` over the layouts that are left: the first layout
that `time.Parse` accepts gives the result, otherwise `time.Now().UTC()` and the
error. `timeParse layout value` is `time.Parse` (`none` when it fails), `now`
is what `time.Now()` reads. -/
def parsePubDateLoop (timeParse : String → String → Option Time) (now : Time) (value : String) :
    List String → Time × Option String
  | [] => (now.UTC, some ("unknown pubDate format: " ++ value))
  | layout :: rest =>
    match timeParse layout value with
    | some t => (t, none)
    | none => parsePubDateLoop timeParse now value rest

/-- The function `parsePubDate`. -/
def parsePubDate (timeParse : String → String → Option Time) (now : Time) (value : String) :
    Time × Option String :=
  parsePubDateLoop timeParse now value layouts

/-- The predicate `unicode.IsSpace`. -/
def isSpace (c : Char) : Bool :=
  let n := c.toNat
  n == 0x09 || n == 0x0A || n == 0x0B || n == 0x0C || n == 0x0D || n == 0x20 ||
  n == 0x85 || n == 0xA0 || n == 0x1680 || (0x2000 ≤ n && n ≤ 0x200A) ||
  n == 0x2028 || n == 0x2029 || n == 0x202F || n == 0x205F || n == 0x3000

/-- The function `strings.TrimSpace`: leading and trailing white space removed. -/
def TrimSpace (s : String) : String :=
  String.mk (((s.data.dropWhile isSpace).reverse.dropWhile isSpace).reverse)

/-- The response of `client.Do` as far as `Fetch` reads it: the status code and
the result of `io.ReadAll(resp.Body)`. -/
structure Response where
  StatusCode : Int
  Body : Except String String

/-- Everything outside the program that one call of `Fetch` meets: the error of
`http.NewRequestWithContext` (if any), the result of `client.Do`, the function
`xml.Unmarshal` into an `rssFeed`, `time.Parse`, and the clock, `now i` being
what `time.Now()` reads while item `i` is handled. -/
structure World where
  newRequest : String → Option String
  clientDo : String → Except String Response
  xmlUnmarshal : String → Except String rssFeed
  timeParse : String → String → Option Time
  now : Nat → Time

/-- The body of the loop of `Fetch`: the entry for the item at position `i`. -/
def entry (w : World) (i : Nat) (it : rssItem) : Item :=
  { Title := TrimSpace it.Title,
    Description := TrimSpace it.Description,
    Link := TrimSpace it.Link,
    PublishedAt := (parsePubDate w.timeParse (w.now i) it.PubDate).1 }

/-- The loop of `Fetch` over the items from position `i` on. -/
def entries (w : World) : Nat → List rssItem → List Item
  | _, [] => []
  | i, it :: rest => entry w i it :: entries w (i + 1) rest

/-- The method `Fetcher.Fetch`. -/
def Fetch (w : World) (url : String) : Except String (List Item) :=
  match w.newRequest url with
  | some e => .error ("create request: " ++ e)
  | none =>
    match w.clientDo url with
    | .error e => .error ("request feed: " ++ e)
    | .ok resp =>
      if resp.StatusCode ≠ 200 then
        .error ("unexpected status " ++ toString resp.StatusCode)
      else
        match resp.Body with
        | .error e => .error ("read body: " ++ e)
        | .ok body =>
          match w.xmlUnmarshal body with
          | .error e => .error ("parse rss: " ++ e)
          | .ok feed => .ok (entries w 0 feed.Items)

/-! ## One round (`App.runOnce`) -/

/-- The conversion of an item to a `storage.Post` in the fetch goroutine; `ID`
and `CreatedAt` keep their zero values. -/
def toPost (it : Item) : Post :=
  { ID := 0, Title := it.Title, Description := it.Description, Link := it.Link,
    PublishedAt := it.PublishedAt, CreatedAt := Time.zero }

/-- A channel send of a fetch goroutine: a post on `postsCh` or an error on `errCh`. -/
inductive TaskMsg where
  | post (p : Post)
  | err (e : String)
deriving DecidableEq, Repr

/-- The message as the collector receives it. -/
def TaskMsg.toRecv : TaskMsg → Recv
  | .post p => Recv.post p
  | .err e => Recv.err e

/-- The sends a fetch goroutine has to perform once `Fetch` has returned: the
wrapped error on `errCh`, or the posts on `postsCh` in the order of the items. -/
def taskSends (url : String) : Except String (List Item) → List TaskMsg
  | .error e => [TaskMsg.err ("fetch " ++ url ++ ": " ++ e)]
  | .ok items => items.map (fun it => TaskMsg.post (toPost it))

/-- A configured feed together with what its fetch meets in this round. -/
structure Feed where
  url : String
  world : World

/-- The state of a round: for every fetch goroutine the sends it still has to
perform (none left: it has called `wg.Done`), whether the closing goroutine has
closed `postsCh` and `errCh`, and the collector. -/
structure Round (σ : Type) where
  tasks : List (List TaskMsg)
  postsClosed : Bool
  errClosed : Bool
  coll : Collector σ

/-- The state of `runOnce` when all goroutines are started. -/
def Round.init {σ : Type} (st : σ) (feeds : List Feed) : Round σ :=
  { tasks := feeds.map (fun f => taskSends f.url (Fetch f.world f.url)),
    postsClosed := false, errClosed := false, coll := Collector.init st }

/-- The atomic steps of a round. The channels are unbuffered, so a send of
fetch goroutine `i` happens together with the receive in the collector. -/
inductive Move where
  | send (i : Nat)
  | closePosts
  | closeErr
  | recvPostsClosed
  | recvErrClosed
deriving DecidableEq, Repr

/-- Can the collector take this message now: it is in its `select` and the
channel variable is not nil. -/
def Collector.ready {σ : Type} (c : Collector σ) : Recv → Bool
  | .post _ => c.running && c.postsOpen
  | .postsClosed => c.running && c.postsOpen
  | .err _ => c.running && c.errOpen
  | .errClosed => c.running && c.errOpen
  | .ctxDone => false

/-- One step of a round, `none` when the step is not enabled. `closePosts` needs
`wg.Wait()` to have returned (no goroutine has a send left), `closeErr` follows
`closePosts`, and the collector receives a close only from a closed channel. -/
def Round.step {σ : Type} (S : Store σ) (r : Round σ) : Move → Option (Round σ)
  | .send i =>
    match r.tasks[i]? with
    | some (m :: rest) =>
      if r.coll.ready m.toRecv then
        some { r with tasks := r.tasks.set i rest, coll := select S r.coll m.toRecv }
      else none
    | _ => none
  | .closePosts =>
    if r.tasks.all List.isEmpty && !r.postsClosed then some { r with postsClosed := true }
    else none
  | .closeErr =>
    if r.postsClosed && !r.errClosed then some { r with errClosed := true } else none
  | .recvPostsClosed =>
    if r.postsClosed && r.coll.ready Recv.postsClosed then
      some { r with coll := select S r.coll Recv.postsClosed }
    else none
  | .recvErrClosed =>
    if r.errClosed && r.coll.ready Recv.errClosed then
      some { r with coll := select S r.coll Recv.errClosed }
    else none

/-- All moves of a round with this many fetch goroutines. -/
def Round.moves {σ : Type} (r : Round σ) : List Move :=
  (List.range r.tasks.length).map Move.send ++
    [Move.closePosts, Move.closeErr, Move.recvPostsClosed, Move.recvErrClosed]

/-- The moves that are enabled. -/
def Round.enabled {σ : Type} (S : Store σ) (r : Round σ) : List Move :=
  r.moves.filter (fun m => (r.step S m).isSome)

/-- A round under a scheduler: at step `k` the scheduler picks one of the
enabled moves, `sched k` modulo their number. The run stops when no move is
enabled or the fuel is used up. -/
def Round.run {σ : Type} (S : Store σ) (sched : Nat → Nat) : Nat → Nat → Round σ → Round σ
  | 0, _, r => r
  | fuel + 1, k, r =>
    match (r.enabled S)[sched k % (r.enabled S).length]? with
    | none => r
    | some m =>
      match r.step S m with
      | none => r
      | some r1 => Round.run S sched fuel (k + 1) r1

/-- The method `App.runOnce` without cancellation, under a scheduler. -/
def runOnce {σ : Type} (S : Store σ) (st : σ) (feeds : List Feed) (sched : Nat → Nat)
    (fuel : Nat) : Round σ :=
  Round.run S sched fuel 0 (Round.init st feeds)

/-- Has `runOnce` returned: the collector has left its loop, every fetch
goroutine is done and both channels are closed. -/
def Round.completed {σ : Type} (r : Round σ) : Bool :=
  !r.coll.running && r.tasks.all List.isEmpty && r.postsClosed && r.errClosed

/-- The number of steps a round takes: one per send, two closes, two receives of
a close. -/
def Round.size {σ : Type} (r : Round σ) : Nat :=
  r.tasks.flatten.length + (if r.postsClosed then 0 else 1) + (if r.errClosed then 0 else 1) +
    (if r.coll.postsOpen then 1 else 0) + (if r.coll.errOpen then 1 else 0)

/-- The posts among the sends. -/
def postsOf (ms : List TaskMsg) : List Post :=
  ms.filterMap (fun m => match m with | .post p => some p | .err _ => none)

/-- The errors among the sends. -/
def errsOf (ms : List TaskMsg) : List String :=
  ms.filterMap (fun m => match m with | .post _ => none | .err e => some e)

/-- The fetch failures in the log. -/
def fetchLogs (l : List LogEntry) : List String :=
  l.filterMap (fun e => match e with | .fetchFeed s => some s | .savePosts _ => none)

/-- The entries of the feeds whose fetch succeeded, as posts, feed by feed. -/
def successPosts (feeds : List Feed) : List Post :=
  (feeds.map (fun f => match Fetch f.world f.url with
    | .ok items => items.map toPost
    | .error _ => [])).flatten

/-- The failures of the feeds whose fetch failed, as the goroutine wraps them. -/
def failures (feeds : List Feed) : List String :=
  feeds.filterMap (fun f => match Fetch f.world f.url with
    | .ok _ => none
    | .error e => some ("fetch " ++ f.url ++ ": " ++ e))

/-! ## The store (`internal/storage`) -/

/-- Modelled from the spec: the table `posts`, whose DDL is not among the
sources. Its rows have the columns of `Post`; `link` is unique; `id` is assigned
by the store (here from the counter `nextID`) and `created_at` is set when the
row is first inserted. -/
structure Table where
  rows : List Post
  nextID : Int
deriving DecidableEq, Repr

/-- The invariant of the table: no two rows have the same link. -/
def Table.uniqueLinks (t : Table) : Prop := (t.rows.map (fun r => r.Link)).Nodup

instance Table.uniqueLinksDecidable (t : Table) : Decidable t.uniqueLinks :=
  inferInstanceAs (Decidable (List.Nodup (t.rows.map (fun r : Post => r.Link))))

/-- The rows of the table with the given link. -/
def Table.withLink (t : Table) (link : String) : List Post :=
  t.rows.filter (fun r => r.Link = link)

/-- The arguments of one execution of the prepared statement of `SavePosts`. -/
structure UpsertArgs where
  title : String
  description : String
  link : String
  publishedAt : Time
deriving DecidableEq, Repr

/-- The arguments `SavePosts` passes for a post. -/
def UpsertArgs.ofPost (p : Post) : UpsertArgs :=
  { title := p.Title, description := p.Description, link := p.Link,
    publishedAt := p.PublishedAt }

/-- The statement prepared in `SavePosts`,
`INSERT INTO posts (title, description, link, published_at) VALUES ($1, $2, $3, $4)
ON CONFLICT (link) DO UPDATE SET title = EXCLUDED.title, description =
EXCLUDED.description, published_at = EXCLUDED.published_at`,
executed at database time `now`: a row with this link is updated in its three
columns, otherwise a new row is appended with a fresh id and `created_at = now`. -/
def upsert (now : Time) (t : Table) (a : UpsertArgs) : Table :=
  if t.rows.any (fun r => r.Link = a.link) then
    { t with rows := t.rows.map (fun r =>
        if r.Link = a.link then
          { r with Title := a.title, Description := a.description, PublishedAt := a.publishedAt }
        else r) }
  else
    { rows := t.rows ++ [{ ID := t.nextID, Title := a.title, Description := a.description,
                           Link := a.link, PublishedAt := a.publishedAt, CreatedAt := now }],
      nextID := t.nextID + 1 }

/-- The failures the database can answer with during one call of `SavePosts`:
on `BeginTx`, on `PrepareContext`, on the `k`-th `ExecContext` (counted from 0)
and on `Commit`; `none` is success. -/
structure Faults where
  begin : Option String
  prepare : Option String
  exec : Nat → Option String
  commit : Option String

/-- The database that does not fail. -/
def Faults.none : Faults :=
  { begin := Option.none, prepare := Option.none, exec := fun _ => Option.none,
    commit := Option.none }

/-- A call `SavePosts` or `Latest` makes on the database, with its outcome. -/
inductive DBCall where
  | beginTx (ok : Bool)
  | prepare (ok : Bool)
  | exec (a : UpsertArgs) (ok : Bool)
  | commit (ok : Bool)
  | rollback
  | stmtClose
  | query (limit : Int) (ok : Bool)
deriving DecidableEq, Repr

/-- The database during a call: the committed table, which is what every other
reader sees, the working table of the open transaction if there is one, and
the calls made so far. -/
structure DB where
  committed : Table
  tx : Option Table
  trace : List DBCall
deriving DecidableEq, Repr

/-- The method `db.BeginTx`: on success a transaction is open on a copy of the
committed table. -/
def DB.BeginTx (f : Faults) (d : DB) : DB × Option String :=
  match f.begin with
  | some e => ({ d with trace := d.trace ++ [DBCall.beginTx false] }, some e)
  | Option.none =>
    ({ d with tx := some d.committed, trace := d.trace ++ [DBCall.beginTx true] }, Option.none)

/-- The method `tx.PrepareContext`. -/
def DB.PrepareContext (f : Faults) (d : DB) : DB × Option String :=
  match f.prepare with
  | some e => ({ d with trace := d.trace ++ [DBCall.prepare false] }, some e)
  | Option.none => ({ d with trace := d.trace ++ [DBCall.prepare true] }, Option.none)

/-- The method `stmt.ExecContext`, the `k`-th of the call, at database time
`now`: on success the statement acts on the working table of the transaction. -/
def DB.ExecContext (f : Faults) (now : Time) (k : Nat) (d : DB) (a : UpsertArgs) :
    DB × Option String :=
  match f.exec k with
  | some e => ({ d with trace := d.trace ++ [DBCall.exec a false] }, some e)
  | Option.none =>
    ({ d with tx := d.tx.map (fun t => upsert now t a),
              trace := d.trace ++ [DBCall.exec a true] }, Option.none)

/-- The method `tx.Commit`: on success the working table becomes the committed
one; either way the transaction is over. -/
def DB.Commit (f : Faults) (d : DB) : DB × Option String :=
  match f.commit with
  | some e => ({ d with tx := Option.none, trace := d.trace ++ [DBCall.commit false] }, some e)
  | Option.none =>
    ({ committed := d.tx.getD d.committed, tx := Option.none,
       trace := d.trace ++ [DBCall.commit true] }, Option.none)

/-- The method `tx.Rollback`: the working table is dropped (nothing happens when
the transaction is already over). -/
def DB.Rollback (d : DB) : DB :=
  { d with tx := Option.none, trace := d.trace ++ [DBCall.rollback] }

/-- The method `stmt.Close`. -/
def DB.StmtClose (d : DB) : DB :=
  { d with trace := d.trace ++ [DBCall.stmtClose] }

/-- The first deferred function of `SavePosts`: roll back when `err` is set. -/
def deferRollback (d : DB) (err : Option String) : DB :=
  match err with
  | some _ => d.Rollback
  | Option.none => d

/-- The loop of `SavePosts` over the posts that are left, `k` statements having
been executed: a post with an empty link is skipped, the first failing
statement ends the loop with its error. -/
def execLoop (f : Faults) (now : Time) : List Post → Nat → DB → DB × Option String
  | [], _, d => (d, Option.none)
  | post :: rest, k, d =>
    if post.Link = "" then execLoop f now rest k d
    else
      match d.ExecContext f now k (UpsertArgs.ofPost post) with
      | (d1, some e) => (d1, some e)
      | (d1, Option.none) => execLoop f now rest (k + 1) d1

/-- The method `Postgres.SavePosts`: the database after the call and the error
returned. The deferred functions run in reverse order of their `defer`:
`stmt.Close()` first, then the conditional `tx.Rollback()`. -/
def SavePosts (f : Faults) (now : Time) (d : DB) (posts : List Post) : DB × Option String :=
  if posts.length = 0 then (d, Option.none)
  else
    match d.BeginTx f with
    | (d1, some e) => (d1, some ("begin tx: " ++ e))
    | (d1, Option.none) =>
      match d1.PrepareContext f with
      | (d2, some e) => (deferRollback d2 (some e), some ("prepare statement: " ++ e))
      | (d2, Option.none) =>
        match execLoop f now posts 0 d2 with
        | (d3, some e) => (deferRollback d3.StmtClose (some e), some ("insert post: " ++ e))
        | (d3, Option.none) =>
          match d3.Commit f with
          | (d4, some e) => (deferRollback d4.StmtClose (some e), some ("commit tx: " ++ e))
          | (d4, Option.none) => (deferRollback d4.StmtClose Option.none, Option.none)

/-- A database with the given committed table, no open transaction and no calls
made yet. -/
def DB.ofTable (t : Table) : DB := { committed := t, tx := Option.none, trace := [] }

/-- The posts of a batch that `SavePosts` does not skip. -/
def withLinks (posts : List Post) : List Post :=
  posts.filter (fun p => p.Link ≠ "")

/-- The table after the given statements were executed in turn at time `now`. -/
def upsertAll (now : Time) (t : Table) (args : List UpsertArgs) : Table :=
  args.foldl (upsert now) t

/-- The order of `ORDER BY published_at DESC`: later instants first. -/
def laterFirst (a b : Post) : Prop := b.PublishedAt.nanos ≤ a.PublishedAt.nanos

instance laterFirstDecidable : DecidableRel laterFirst :=
  fun a b => inferInstanceAs (Decidable (b.PublishedAt.nanos ≤ a.PublishedAt.nanos))

instance laterFirstTotal : IsTotal Post laterFirst :=
  ⟨fun a b => Int.le_total b.PublishedAt.nanos a.PublishedAt.nanos⟩

instance laterFirstTrans : IsTrans Post laterFirst :=
  ⟨fun _ _ _ hab hbc => Int.le_trans hbc hab⟩

/-- The query of `Latest`,
`SELECT id, title, description, link, published_at, created_at FROM posts
ORDER BY published_at DESC LIMIT $1`, on a table. -/
def selectLatest (t : Table) (limit : Int) : List Post :=
  (t.rows.insertionSort laterFirst).take limit.toNat

/-- The method `Postgres.Latest`: the posts, the error, and the database with
its trace. `qfail` is the failure of `QueryContext`, if any; scanning the rows
does not fail. -/
def Latest (qfail : Option String) (d : DB) (limit : Int) : List Post × Option String × DB :=
  if limit ≤ 0 then ([], some "limit must be greater than zero", d)
  else
    match qfail with
    | some e =>
      ([], some ("query latest: " ++ e), { d with trace := d.trace ++ [DBCall.query limit false] })
    | Option.none =>
      (selectLatest d.committed limit, Option.none,
        { d with trace := d.trace ++ [DBCall.query limit true] })

/-! ## Configuration (`internal/config`) -/

/-- Go's conversion of a mathematical integer to `int64`: two's complement
wrap-around. -/
def wrapInt64 (x : Int) : Int := (x + 2 ^ 63) % 2 ^ 64 - 2 ^ 63

/-- The constant `time.Minute`, in nanoseconds. -/
def Minute : Int := 60000000000

/-- The struct `raw` that `Load` decodes into. -/
structure RawConfig where
  RSS : List String
  RequestPeriod : Int
  DatabaseURL : String
  APIHost : String
deriving DecidableEq, Repr

/-- The struct `Config`; `RequestPeriod` is a `time.Duration`, an `int64` of
nanoseconds. -/
structure Config where
  RSS : List String
  RequestPeriod : Int
  DatabaseURL : String
  APIHost : String
deriving DecidableEq, Repr

/-- The function `Load`. `readFile` is `os.ReadFile` and `unmarshal` is
`json.Unmarshal` into the struct `raw`. -/
def Load (readFile : String → Except String String)
    (unmarshal : String → Except String RawConfig) (path : String) : Except String Config :=
  match readFile path with
  | .error e => .error ("read config: " ++ e)
  | .ok data =>
    match unmarshal data with
    | .error e => .error ("decode config: " ++ e)
    | .ok raw =>
      if raw.RSS.length = 0 then .error "config.rss must contain at least one feed URL"
      else if raw.RequestPeriod ≤ 0 then
        .error "config.request_period must be greater than zero"
      else if raw.DatabaseURL = "" then .error "config.database_url must be provided"
      else
        let cfg : Config :=
          { RSS := raw.RSS,
            RequestPeriod := wrapInt64 (wrapInt64 raw.RequestPeriod * Minute),
            DatabaseURL := raw.DatabaseURL,
            APIHost := raw.APIHost }
        if cfg.APIHost = "" then .ok { cfg with APIHost := ":8080" } else .ok cfg

/-- The function `time.NewTicker`, which `App.Run` calls with the period: it
panics on a period that is not positive. -/
def NewTicker (d : Int) : Except String Int :=
  if d ≤ 0 then .error "non-positive interval for NewTicker" else .ok d

/-- The method `App.Run` up to the creation of its ticker, for an application
built by `app.New` from these feeds and this period: without feeds it only waits
for the context and creates no ticker (`none`); otherwise, after the first
round, it calls `time.NewTicker(a.period)`. -/
def runTicker (feeds : List String) (period : Int) : Option (Except String Int) :=
  if feeds.length = 0 then Option.none else some (NewTicker period)

/-- What `main` does with a configuration file: `Load`, and on success `Run`
with the feeds and the period of the configuration, as far as the ticker. -/
def mainTicker (loaded : Except String Config) : Except String (Option (Except String Int)) :=
  match loaded with
  | .error e => .error ("load config: " ++ e)
  | .ok cfg => .ok (runTicker cfg.RSS cfg.RequestPeriod)

/-! ## The read API (`internal/api`) -/

/-- The value of a decimal digit, `none` for any other character. -/
def digitVal (c : Char) : Option Nat :=
  if 48 ≤ c.toNat ∧ c.toNat ≤ 57 then some (c.toNat - 48) else Option.none

/-- The value of a string of decimal digits read after the value `acc`, `none`
when a character is not a digit. -/
def parseDigits : Nat → List Char → Option Nat
  | acc, [] => some acc
  | acc, c :: cs =>
    match digitVal c with
    | some d => parseDigits (acc * 10 + d) cs
    | Option.none => Option.none

/-- The function `strconv.Atoi` for a 64-bit `int`: an optional sign, at least
one decimal digit, nothing else, and a value in the range of `int`; `none` is a
syntax or range error. -/
def Atoi (s : String) : Option Int :=
  let neg : Bool := s.data.head? = some '-'
  let digits : List Char :=
    if s.data.head? = some '-' ∨ s.data.head? = some '+' then s.data.tail else s.data
  if digits = [] then Option.none
  else
    match parseDigits 0 digits with
    | Option.none => Option.none
    | some n =>
      let v : Int := if neg then -(n : Int) else (n : Int)
      if -(2 : Int) ^ 63 ≤ v ∧ v < (2 : Int) ^ 63 then some v else Option.none

/-- The struct `Server` as far as `handleNews` reads it. -/
structure Server where
  defaultNum : Int
deriving DecidableEq, Repr

/-- The function `api.New`. -/
def New : Server := { defaultNum := 10 }

/-- A request as `handleNews` reads it: `chi.URLParam(r, "limit")` and
`r.URL.Query().Get("limit")`, each the empty string when absent. -/
structure Request where
  pathLimit : String
  queryLimit : String
deriving DecidableEq, Repr

/-- The first part of `handleNews`: the limit it passes to `store.Latest`. -/
def newsLimit (s : Server) (r : Request) : Int :=
  let limitParam := if r.pathLimit = "" then
      (if r.queryLimit ≠ "" then r.queryLimit else r.pathLimit)
    else r.pathLimit
  if limitParam ≠ "" then
    match Atoi (TrimSpace limitParam) with
    | some n => if n > 0 then n else s.defaultNum
    | Option.none => s.defaultNum
  else s.defaultNum

/-- The method `Server.handleNews`: the limit passed to `store.Latest` and the
response, a status and either the posts to encode or the error text. `latest`
is `store.Latest`. -/
def handleNews (s : Server) (latest : Int → List Post × Option String) (r : Request) :
    Int × Nat × Except String (List Post) :=
  let limit := newsLimit s r
  match latest limit with
  | (_, some e) => (limit, 500, .error e)
  | (posts, Option.none) => (limit, 200, .ok posts)

/-- The store after `SavePosts` was called on the given batches in turn. -/
def replay {σ : Type} (S : Store σ) (st : σ) (calls : List (List Post)) : σ :=
  calls.foldl (fun s b => (S.SavePosts s b).1) st

/-- The posts the collector has received so far, in arrival order: those of the
batches already handed over, then the buffer. -/
def Collector.arrived {σ : Type} (c : Collector σ) : List Post :=
  c.calls.flatten ++ c.batch

/-- A post for the examples: it is told apart by its number. -/
def samplePost (i : Nat) : Post :=
  { ID := i, Title := "t", Description := "d", Link := "l", PublishedAt := Time.zero,
    CreatedAt := Time.zero }

/-- A store for the examples: its state is the number of posts saved, and it
reports an error for every batch of fewer than 25 posts. -/
def sampleStore : Store Nat :=
  { SavePosts := fun n b => (n + b.length, if b.length < 25 then some "short" else none) }

/-- Sixty posts arrive, a fetch error among them, then both channels close. -/
def sampleArrival : List Recv :=
  (List.range 30).map (fun i => Recv.post (samplePost i)) ++ [Recv.err "fetch a: boom"] ++
    (List.range' 30 30).map (fun i => Recv.post (samplePost i)) ++
    [Recv.postsClosed, Recv.errClosed]

/-- The control invariant of a round: `postsCh` is closed only when no fetch
goroutine has a send left, `errCh` is closed after `postsCh`, the collector sets
a channel variable to nil only after the channel is closed, it is not
cancelled, its buffer is below the threshold and is empty once `postsCh` is nil. -/
structure Round.Ok {σ : Type} (r : Round σ) : Prop where
  closed_tasks : r.postsClosed = true → r.tasks.all List.isEmpty = true
  err_after : r.errClosed = true → r.postsClosed = true
  nil_posts : r.coll.postsOpen = false → r.postsClosed = true
  nil_err : r.coll.errOpen = false → r.errClosed = true
  not_cancelled : r.coll.cancelled = false
  batch_lt : r.coll.batch.length < batchSize
  batch_nil : r.coll.postsOpen = false → r.coll.batch = []

/-- The posts of a round, received or still to be sent. -/
def Round.allPosts {σ : Type} (r : Round σ) : List Post :=
  r.coll.arrived ++ postsOf r.tasks.flatten

/-- The fetch failures of a round, logged or still to be sent. -/
def Round.allErrs {σ : Type} (r : Round σ) : List String :=
  fetchLogs r.coll.logs ++ errsOf r.tasks.flatten

/-- The posts of a sequence that carry the label `i`, in the order of the
sequence; the labels are zipped to the posts. -/
def fromFeed (arrived : List Post) (labels : List Nat) (i : Nat) : List Post :=
  ((arrived.zip labels).filter (fun x => x.2 = i)).map Prod.fst

/-- The posts feed `i` contributes to a round: the entries of its fetch as
posts, none when the fetch fails or there is no such feed. -/
def feedPosts (feeds : List Feed) (i : Nat) : List Post :=
  match feeds[i]? with
  | some f =>
    (match Fetch f.world f.url with
      | .ok items => items.map toPost
      | .error _ => [])
  | none => []

/-- The posts received can be labelled with the fetch goroutine each came from
so that, for every goroutine `i`, the posts received from `i`, in arrival order,
followed by the posts `i` has still to send, are all the posts of `i`. -/
def Round.labelled {σ : Type} (full : Nat → List Post) (r : Round σ) : Prop :=
  ∃ labels : List Nat, labels.length = r.coll.arrived.length ∧
    ∀ i, fromFeed r.coll.arrived labels i ++ postsOf (r.tasks[i]?.getD []) = full i

/-- The number of steps of a round over these feeds: one per post sent, one per
failure sent, and the two closes with their two receives. -/
def roundSteps (feeds : List Feed) : Nat :=
  (successPosts feeds).length + (failures feeds).length + 4

/-- Did the fetch of this feed fail? -/
def Feed.failed (f : Feed) : Bool :=
  match Fetch f.world f.url with
  | .ok _ => false
  | .error _ => true

/-- A world for the examples in which the server answers with the given status
and an empty body. -/
def worldStatus (code : Int) : World :=
  { newRequest := fun _ => none,
    clientDo := fun _ => .ok { StatusCode := code, Body := .ok "" },
    xmlUnmarshal := fun _ => .ok { Items := [] },
    timeParse := fun _ _ => none,
    now := fun _ => Time.zero }

/-- A world for the examples in which the server answers 200 with a body that
decodes to the given document; only the date `d1` parses, under RFC 822, and
the clock reads `1000 + i` at item `i`. -/
def worldDoc (doc : rssFeed) : World :=
  { newRequest := fun _ => none,
    clientDo := fun _ => .ok { StatusCode := 200, Body := .ok "<rss/>" },
    xmlUnmarshal := fun _ => .ok doc,
    timeParse := fun layout value =>
      if layout = RFC822 ∧ value = "d1" then some { nanos := 5, loc := "MST" } else none,
    now := fun i => { nanos := 1000 + i, loc := "Local" } }

/-- A document of three items for the examples. -/
def sampleDoc : rssFeed :=
  { Items := [{ Title := " X ", Description := "x", Link := "http://b/x", PubDate := "d1" },
              { Title := "Y", Description := "y", Link := "http://b/y", PubDate := "?" },
              { Title := "Z", Description := "z", Link := " http://b/z", PubDate := "" }] }

/-- The feeds of the examples: feed A answers 500, feed B yields three entries. -/
def sampleFeeds : List Feed :=
  [{ url := "http://a", world := worldStatus 500 },
   { url := "http://b", world := worldDoc sampleDoc }]

/-- A post for the examples with the given link and title. -/
def linkPost (link title : String) (at_ : Int) : Post :=
  { ID := 0, Title := title, Description := "", Link := link,
    PublishedAt := { nanos := at_, loc := "UTC" }, CreatedAt := Time.zero }

/-- A table for the examples: one row, with link `a`. -/
def sampleTable : Table :=
  { rows := [{ ID := 1, Title := "old", Description := "", Link := "a",
               PublishedAt := { nanos := 1, loc := "UTC" },
               CreatedAt := { nanos := 2, loc := "UTC" } }],
    nextID := 2 }

/-- A batch for the examples: links `a`, empty, `b`. -/
def sampleBatch : List Post :=
  [linkPost "a" "new" 10, linkPost "" "skipped" 20, linkPost "b" "other" 30]

/-- A database for the examples whose second statement fails. -/
def faultySecondExec : Faults :=
  { begin := Option.none, prepare := Option.none,
    exec := fun k => if k = 1 then some "deadlock" else Option.none,
    commit := Option.none }

/-- The committed table after `SavePosts` on a database that does not fail. -/
def afterSave (now : Time) (t : Table) (posts : List Post) : Table :=
  (SavePosts Faults.none now (DB.ofTable t) posts).1.committed

/-- A table for the examples with five posts of distinct `published_at`. -/
def fivePosts : Table :=
  { rows := [linkPost "a" "A" 30, linkPost "b" "B" 10, linkPost "c" "C" 50,
             linkPost "d" "D" 20, linkPost "e" "E" 40],
    nextID := 6 }

/-- The decoded configuration of the examples, with the given `request_period`. -/
def sampleRaw (period : Int) : RawConfig :=
  { RSS := ["http://a/feed"], RequestPeriod := period, DatabaseURL := "postgres://db",
    APIHost := "" }

/-- The function `Load` on a file that decodes to the configuration of the examples. -/
def loadSample (period : Int) : Except String Config :=
  Load (fun _ => .ok "") (fun _ => .ok (sampleRaw period)) "config.json"

/-- The parameter `handleNews` parses: the path parameter when it is not empty,
else the query parameter. -/
def Request.limitParam (r : Request) : String :=
  if r.pathLimit ≠ "" then r.pathLimit else r.queryLimit

/-- A store for the examples of the read API: `Latest` answers with no posts. -/
def emptyLatest (limit : Int) : List Post × Option String :=
  ((Latest Option.none (DB.ofTable { rows := [], nextID := 1 }) limit).1,
    (Latest Option.none (DB.ofTable { rows := [], nextID := 1 }) limit).2.1)

/-- The entries returned by the fetches that succeeded, feed by feed. -/
def successItems (feeds : List Feed) : List Item :=
  (feeds.map (fun f => match Fetch f.world f.url with
    | .ok items => items
    | .error _ => [])).flatten

/-- The three posts that feed B of the examples has to yield: the trimmed texts
of the items X, Y, Z, the date of X as parsed, the dates of Y and Z from the
clock, no id and no creation time. -/
def samplePostsXYZ : List Post :=
  [{ ID := 0, Title := "X", Description := "x", Link := "http://b/x",
     PublishedAt := { nanos := 5, loc := "MST" }, CreatedAt := Time.zero },
   { ID := 0, Title := "Y", Description := "y", Link := "http://b/y",
     PublishedAt := { nanos := 1001, loc := "UTC" }, CreatedAt := Time.zero },
   { ID := 0, Title := "Z", Description := "z", Link := "http://b/z",
     PublishedAt := { nanos := 1002, loc := "UTC" }, CreatedAt := Time.zero }]

/-- The method `Latest` of a `Postgres` store over the database `d`, which does
not fail, as `handleNews` calls it through the interface `Store`. -/
def storeLatest (d : DB) (limit : Int) : List Post × Option String :=
  ((Latest Option.none d limit).1, (Latest Option.none d limit).2.1)

/-- Following the words of the specification, not the source: the integer a
string denotes, an optional sign followed by decimal digits, of any size;
`none` when the string is not an integer. -/
def decimalInt (s : String) : Option Int :=
  let neg : Bool := s.data.head? = some '-'
  let digits : List Char :=
    if s.data.head? = some '-' ∨ s.data.head? = some '+' then s.data.tail else s.data
  if digits = [] then Option.none
  else
    match parseDigits 0 digits with
    | Option.none => Option.none
    | some n => some (if neg then -(n : Int) else (n : Int))

/-- Following the words of the specification, not the source: the limit is 10
when the limit parameter is unspecified, is not an integer or is a non-positive
integer, and is otherwise the positive integer given by the trimmed parameter. -/
def claimedLimit (r : Request) : Int :=
  match decimalInt (TrimSpace r.limitParam) with
  | some n => if 0 < n then n else 10
  | Option.none => 10

/-- A request for the examples whose path parameter is `2 ^ 63` in decimal. -/
def hugeLimitRequest : Request :=
  { pathLimit := "9223372036854775808", queryLimit := "" }

end GoNews

/-! # Theorems -/

namespace GoNews

/-! ## Chunks -/

theorem chunksOf_nil {α : Type} (k : Nat) (hk : 0 < k) : chunksOf k ([] : List α) = [] := by
  have h : (k - 1) / k = 0 := Nat.div_eq_of_lt (by omega)
  simp [chunksOf, h]

theorem chunksOf_append {α : Type} (k : Nat) (hk : 0 < k) (l r : List α) (hl : l.length = k) :
    chunksOf k (l ++ r) = l :: chunksOf k r := by
  have hn : (l ++ r).length + (k - 1) = (r.length + (k - 1)) + k := by
    simp [List.length_append]; omega
  have hd : ((l ++ r).length + (k - 1)) / k = (r.length + (k - 1)) / k + 1 := by
    rw [hn, Nat.add_div_right _ hk]
  unfold chunksOf
  rw [hd, List.range_succ_eq_map, List.map_cons, List.map_map]
  congr 1
  · simp [chunkAt, hl]
  · apply List.map_congr_left
    intro i _
    simp only [chunkAt, Function.comp]
    have : k * (i + 1) = l.length + k * i := by rw [hl]; ring
    rw [this, List.drop_append]

theorem chunksOf_short {α : Type} (k : Nat) (l : List α) (h0 : l ≠ []) (hk : l.length ≤ k) :
    chunksOf k l = [l] := by
  have hpos : 0 < l.length := List.length_pos.mpr h0
  have hd : (l.length + (k - 1)) / k = 1 := by
    apply Nat.div_eq_of_lt_le <;> omega
  simp [chunksOf, hd, chunkAt, List.take_of_length_le hk, List.range_succ]

theorem chunksOf_step {α : Type} (k : Nat) (hk : 0 < k) (l : List α) (h : k < l.length) :
    chunksOf k l = l.take k :: chunksOf k (l.drop k) := by
  have := chunksOf_append k hk (l.take k) (l.drop k) (by simp; omega)
  rwa [List.take_append_drop] at this

theorem chunksOf_props {α : Type} (k : Nat) (hk : 0 < k) :
    ∀ (n : Nat) (l : List α), l.length ≤ n →
      (chunksOf k l).flatten = l ∧ ∀ b ∈ chunksOf k l, b ≠ [] ∧ b.length ≤ k := by
  intro n
  induction n with
  | zero =>
    intro l hl
    have : l = [] := List.length_eq_zero.mp (by omega)
    subst this
    simp [chunksOf_nil k hk]
  | succ n ih =>
    intro l hl
    by_cases h0 : l = []
    · subst h0; simp [chunksOf_nil k hk]
    · by_cases hs : l.length ≤ k
      · rw [chunksOf_short k l h0 hs]
        simp [h0, hs]
      · have hlt : k < l.length := by omega
        rw [chunksOf_step k hk l hlt]
        have hrec := ih (l.drop k) (by simp; omega)
        refine ⟨?_, ?_⟩
        · simp [hrec.1]
        · intro b hb
          rcases List.mem_cons.mp hb with hb | hb
          · subst hb
            refine ⟨?_, by simp⟩
            intro hnil
            have hlen := congrArg List.length hnil
            rw [List.length_take, List.length_nil] at hlen
            have hmin : min k l.length = k := Nat.min_eq_left (by omega)
            omega
          · exact hrec.2 b hb

/-! ## The collector -/

theorem flush_store {σ : Type} (S : Store σ) (st : σ) (c : Collector σ)
    (h : c.store = replay S st c.calls) :
    (flush S c).store = replay S st (flush S c).calls := by
  unfold flush
  by_cases hb : c.batch.length = 0
  · simp [hb, h]
  · simp [hb, h, replay, List.foldl_append]

theorem select_store {σ : Type} (S : Store σ) (st : σ) (c : Collector σ) (m : Recv)
    (h : c.store = replay S st c.calls) :
    (select S c m).store = replay S st (select S c m).calls := by
  cases m with
  | post p =>
    simp only [select]
    split
    · split
      · exact flush_store S st _ h
      · exact h
    · exact h
  | postsClosed =>
    simp only [select]
    split
    · exact flush_store S st _ h
    · exact h
  | err e => simp only [select]; split <;> exact h
  | errClosed => simp only [select]; split <;> exact h
  | ctxDone => exact h

theorem collect_store {σ : Type} (S : Store σ) (st : σ) (ms : List Recv) :
    ∀ c : Collector σ, c.store = replay S st c.calls →
      (collect S c ms).store = replay S st (collect S c ms).calls := by
  induction ms with
  | nil => intro c h; exact h
  | cons m ms ih =>
    intro c h
    simp only [collect]
    split
    · exact ih _ (select_store S st c m h)
    · exact h

theorem collect_postsNil {σ : Type} (S : Store σ) (ms : List Recv) :
    ∀ c : Collector σ, c.postsOpen = false → (collect S c ms).calls = c.calls := by
  induction ms with
  | nil => intro c _; rfl
  | cons m ms ih =>
    intro c h
    simp only [collect]
    split
    · cases m with
      | post p => simp only [select, h]; exact ih c h
      | postsClosed => simp only [select, h]; exact ih c h
      | err e =>
        simp only [select]
        split
        · rw [ih _ (by simpa using h)]
        · exact ih c h
      | errClosed =>
        simp only [select]
        split
        · rw [ih _ (by simpa using h)]
        · exact ih c h
      | ctxDone => simp only [select]; rw [ih _ (by simpa using h)]
    · rfl

theorem select_post_spec {σ : Type} (S : Store σ) (c : Collector σ) (p : Post)
    (ho : c.postsOpen = true) :
    (select S c (Recv.post p)).postsOpen = true ∧
    (select S c (Recv.post p)).errOpen = c.errOpen ∧
    (select S c (Recv.post p)).cancelled = c.cancelled ∧
    fetchLogs (select S c (Recv.post p)).logs = fetchLogs c.logs ∧
    ((c.batch.length + 1 < batchSize ∧ (select S c (Recv.post p)).calls = c.calls ∧
        (select S c (Recv.post p)).batch = c.batch ++ [p]) ∨
     (batchSize ≤ c.batch.length + 1 ∧
        (select S c (Recv.post p)).calls = c.calls ++ [c.batch ++ [p]] ∧
        (select S c (Recv.post p)).batch = [])) := by
  obtain ⟨st, batch, po, eo, logs, canc, calls⟩ := c
  simp only at ho
  subst ho
  by_cases hfull : batchSize ≤ batch.length + 1
  · have h1 : (batch ++ [p]).length ≥ batchSize := by simpa using hfull
    have h2 : ¬ (batch ++ [p]).length = 0 := by simp
    simp only [select, if_true, h1, flush, h2, if_false]
    cases (S.SavePosts st (batch ++ [p])).2 <;>
      simp [fetchLogs, List.filterMap_append, hfull]
  · have h1 : ¬ (batch ++ [p]).length ≥ batchSize := by simpa using hfull
    simp only [select, if_true, h1, if_false]
    have h3 : batch.length + 1 < batchSize := by omega
    simp [h3]

theorem select_postsClosed_spec {σ : Type} (S : Store σ) (c : Collector σ)
    (ho : c.postsOpen = true) :
    (select S c Recv.postsClosed).postsOpen = false ∧
    (select S c Recv.postsClosed).errOpen = c.errOpen ∧
    (select S c Recv.postsClosed).cancelled = c.cancelled ∧
    fetchLogs (select S c Recv.postsClosed).logs = fetchLogs c.logs ∧
    (select S c Recv.postsClosed).batch = [] ∧
    (select S c Recv.postsClosed).calls =
      (if c.batch = [] then c.calls else c.calls ++ [c.batch]) := by
  obtain ⟨st, batch, po, eo, logs, canc, calls⟩ := c
  simp only at ho
  subst ho
  by_cases hb : batch = []
  · subst hb
    simp [select, flush]
  · have h2 : ¬ batch.length = 0 := fun h => hb (List.length_eq_zero.mp h)
    simp only [select, if_true, flush, h2, if_false, hb]
    cases (S.SavePosts st batch).2 <;> simp [fetchLogs, List.filterMap_append]

theorem select_err_spec {σ : Type} (S : Store σ) (c : Collector σ) (e : String)
    (ho : c.errOpen = true) :
    (select S c (Recv.err e)).postsOpen = c.postsOpen ∧
    (select S c (Recv.err e)).errOpen = true ∧
    (select S c (Recv.err e)).cancelled = c.cancelled ∧
    fetchLogs (select S c (Recv.err e)).logs = fetchLogs c.logs ++ [e] ∧
    (select S c (Recv.err e)).batch = c.batch ∧
    (select S c (Recv.err e)).calls = c.calls := by
  obtain ⟨st, batch, po, eo, logs, canc, calls⟩ := c
  simp only at ho
  subst ho
  simp [select, fetchLogs, List.filterMap_append]

theorem select_errClosed_spec {σ : Type} (S : Store σ) (c : Collector σ)
    (ho : c.errOpen = true) :
    (select S c Recv.errClosed).postsOpen = c.postsOpen ∧
    (select S c Recv.errClosed).errOpen = false ∧
    (select S c Recv.errClosed).cancelled = c.cancelled ∧
    fetchLogs (select S c Recv.errClosed).logs = fetchLogs c.logs ∧
    (select S c Recv.errClosed).batch = c.batch ∧
    (select S c Recv.errClosed).calls = c.calls := by
  obtain ⟨st, batch, po, eo, logs, canc, calls⟩ := c
  simp only at ho
  subst ho
  simp [select]

theorem select_errCh_keeps {σ : Type} (S : Store σ) (c : Collector σ) (m : Recv)
    (hm : m = Recv.errClosed ∨ ∃ e, m = Recv.err e) :
    (select S c m).postsOpen = c.postsOpen ∧ (select S c m).cancelled = c.cancelled ∧
    (select S c m).batch = c.batch ∧ (select S c m).calls = c.calls := by
  rcases hm with hm | ⟨e, hm⟩
  · subst hm
    by_cases ho : c.errOpen = true
    · obtain ⟨h1, _, h3, _, h5, h6⟩ := select_errClosed_spec S c ho
      exact ⟨h1, h3, h5, h6⟩
    · simp [select, ho]
  · subst hm
    by_cases ho : c.errOpen = true
    · obtain ⟨h1, _, h3, _, h5, h6⟩ := select_err_spec S c e ho
      exact ⟨h1, h3, h5, h6⟩
    · simp [select, ho]

theorem collect_calls {σ : Type} (S : Store σ) (ms : List Recv) :
    ∀ (c : Collector σ) (rest : List Post),
      c.postsOpen = true → c.cancelled = false → c.batch.length < batchSize →
      Recv.ctxDone ∉ ms →
      ms.filter Recv.onPostsCh = rest.map Recv.post ++ [Recv.postsClosed] →
      (collect S c ms).calls = c.calls ++ chunksOf batchSize (c.batch ++ rest) := by
  induction ms with
  | nil =>
    intro c rest _ _ _ _ hf
    simp at hf
  | cons m ms ih =>
    intro c rest ho hc hb hctx hf
    have hrun : c.running = true := by simp [Collector.running, ho, hc]
    have hctx1 : Recv.ctxDone ∉ ms := fun h => hctx (List.mem_cons_of_mem _ h)
    simp only [collect, hrun, if_true]
    cases m with
    | post p =>
      cases rest with
      | nil => simp [Recv.onPostsCh] at hf
      | cons q rest =>
        simp only [Recv.onPostsCh, List.filter_cons_of_pos, List.map_cons, List.cons_append,
          List.cons.injEq, Recv.post.injEq] at hf
        obtain ⟨hpq, hf⟩ := hf
        subst hpq
        obtain ⟨h1, _, h3, _, h5⟩ := select_post_spec S c p ho
        rcases h5 with ⟨hlt, hcalls, hbatch⟩ | ⟨hge, hcalls, hbatch⟩
        · rw [ih _ rest h1 (by rw [h3]; exact hc) (by rw [hbatch]; simpa using hlt) hctx1 hf,
            hcalls, hbatch]
          simp
        · rw [ih _ rest h1 (by rw [h3]; exact hc) (by rw [hbatch]; simp [batchSize]) hctx1 hf,
            hcalls, hbatch]
          have hlen : (c.batch ++ [p]).length = batchSize := by
            simp only [List.length_append, List.length_singleton]
            omega
          have := chunksOf_append batchSize (by decide) (c.batch ++ [p]) rest hlen
          simp only [List.append_assoc, List.singleton_append, List.nil_append] at this ⊢
          rw [this]
    | postsClosed =>
      cases rest with
      | cons q rest => simp [Recv.onPostsCh] at hf
      | nil =>
        obtain ⟨h1, _, _, _, _, h6⟩ := select_postsClosed_spec S c ho
        rw [collect_postsNil S ms _ h1, h6, List.append_nil]
        by_cases hnil : c.batch = []
        · simp [hnil, chunksOf_nil batchSize (by decide)]
        · simp only [hnil, if_false]
          rw [chunksOf_short batchSize c.batch hnil (by omega)]
    | err e =>
      have hf1 : ms.filter Recv.onPostsCh = rest.map Recv.post ++ [Recv.postsClosed] := by
        simpa [Recv.onPostsCh] using hf
      obtain ⟨h1, h2, h3, h4⟩ := select_errCh_keeps S c (Recv.err e) (Or.inr ⟨e, rfl⟩)
      rw [ih _ rest (by rw [h1]; exact ho) (by rw [h2]; exact hc) (by rw [h3]; exact hb)
        hctx1 hf1, h3, h4]
    | errClosed =>
      have hf1 : ms.filter Recv.onPostsCh = rest.map Recv.post ++ [Recv.postsClosed] := by
        simpa [Recv.onPostsCh] using hf
      obtain ⟨h1, h2, h3, h4⟩ := select_errCh_keeps S c Recv.errClosed (Or.inl rfl)
      rw [ih _ rest (by rw [h1]; exact ho) (by rw [h2]; exact hc) (by rw [h3]; exact hb)
        hctx1 hf1, h3, h4]
    | ctxDone => exact absurd (List.mem_cons_self _ _) hctx

/-- C1: for every store (so for every outcome of the `SavePosts` calls), every
sequence of posts and every sequence of receives of `collect` without
cancellation whose receives on `postsCh` are these posts followed by the close,
the batches handed to `SavePosts` are the posts cut into consecutive chunks of
25: there are `ceil (n / 25)` of them, the `i`-th is `posts[25 i ..< 25 i + 25]`,
none is empty, none is longer than 25, their concatenation is the arrival
sequence, the store is the result of exactly these calls, and for 60 posts the
sizes are 25, 25, 10. -/
theorem collect_batches {σ : Type} (S : Store σ) (st : σ) (posts : List Post)
    (ms : List Recv) (hctx : Recv.ctxDone ∉ ms)
    (hposts : ms.filter Recv.onPostsCh = posts.map Recv.post ++ [Recv.postsClosed]) :
    (collect S (Collector.init st) ms).calls = chunksOf 25 posts ∧
    (collect S (Collector.init st) ms).calls.length = (posts.length + 24) / 25 ∧
    (∀ i, i < (posts.length + 24) / 25 →
      (collect S (Collector.init st) ms).calls[i]? = some ((posts.drop (25 * i)).take 25)) ∧
    (∀ b ∈ (collect S (Collector.init st) ms).calls, b ≠ [] ∧ b.length ≤ 25) ∧
    (collect S (Collector.init st) ms).calls.flatten = posts ∧
    (collect S (Collector.init st) ms).store =
      replay S st (collect S (Collector.init st) ms).calls ∧
    (posts.length = 60 →
      (collect S (Collector.init st) ms).calls.map List.length = [25, 25, 10]) := by
  have hcalls : (collect S (Collector.init st) ms).calls = chunksOf 25 posts := by
    have := collect_calls S ms (Collector.init st) posts rfl rfl
      (by simp [Collector.init, batchSize]) hctx hposts
    simpa [Collector.init, batchSize] using this
  have hprops := chunksOf_props 25 (by decide) posts.length posts (le_refl _)
  refine ⟨hcalls, ?_, ?_, ?_, ?_, ?_, ?_⟩
  · rw [hcalls]; simp [chunksOf]
  · intro i hi
    rw [hcalls]
    simp [chunksOf, chunkAt, List.getElem?_map, List.getElem?_range hi]
  · rw [hcalls]; exact hprops.2
  · rw [hcalls]; exact hprops.1
  · exact collect_store S st ms (Collector.init st) rfl
  · intro h60
    rw [hcalls]
    simp [chunksOf, chunkAt, h60, List.range_succ, List.length_take, List.length_drop]

/-- C1, an instance: sixty posts, a fetch failure arriving among them, and a
store that rejects the last batch. -/
theorem collect_batches_witness :
    (Recv.ctxDone ∉ sampleArrival ∧
      sampleArrival.filter Recv.onPostsCh =
        ((List.range 60).map samplePost).map Recv.post ++ [Recv.postsClosed]) ∧
    (collect sampleStore (Collector.init 0) sampleArrival).calls.map List.length =
      [25, 25, 10] :=
  ⟨⟨by decide, by decide⟩,
    (collect_batches sampleStore 0 ((List.range 60).map samplePost) sampleArrival
      (by decide) (by decide)).2.2.2.2.2.2 (by decide)⟩

/-! ## One round -/

theorem step_cases {σ : Type} (S : Store σ) (r r1 : Round σ) (m : Move)
    (h : r.step S m = some r1) :
    (∃ i p rest, m = Move.send i ∧ r.tasks[i]? = some (TaskMsg.post p :: rest) ∧
        r.coll.postsOpen = true ∧
        r1 = { r with tasks := r.tasks.set i rest, coll := select S r.coll (Recv.post p) }) ∨
    (∃ i e rest, m = Move.send i ∧ r.tasks[i]? = some (TaskMsg.err e :: rest) ∧
        r.coll.errOpen = true ∧
        r1 = { r with tasks := r.tasks.set i rest, coll := select S r.coll (Recv.err e) }) ∨
    (m = Move.closePosts ∧ r.tasks.all List.isEmpty = true ∧ r.postsClosed = false ∧
        r1 = { r with postsClosed := true }) ∨
    (m = Move.closeErr ∧ r.postsClosed = true ∧ r.errClosed = false ∧
        r1 = { r with errClosed := true }) ∨
    (m = Move.recvPostsClosed ∧ r.postsClosed = true ∧ r.coll.postsOpen = true ∧
        r1 = { r with coll := select S r.coll Recv.postsClosed }) ∨
    (m = Move.recvErrClosed ∧ r.errClosed = true ∧ r.coll.errOpen = true ∧
        r1 = { r with coll := select S r.coll Recv.errClosed }) := by
  cases m with
  | send i =>
    simp only [Round.step] at h
    split at h
    · rename_i msg rest hi
      split at h
      · rename_i hready
        cases msg with
        | post p =>
          left
          simp only [TaskMsg.toRecv, Collector.ready, Bool.and_eq_true] at hready
          simp only [Option.some.injEq] at h
          exact ⟨i, p, rest, rfl, hi, hready.2, h.symm⟩
        | err e =>
          right; left
          simp only [TaskMsg.toRecv, Collector.ready, Bool.and_eq_true] at hready
          simp only [Option.some.injEq] at h
          exact ⟨i, e, rest, rfl, hi, hready.2, h.symm⟩
      · exact absurd h (by simp)
    · exact absurd h (by simp)
  | closePosts =>
    simp only [Round.step] at h
    split at h
    · rename_i hg
      simp only [Bool.and_eq_true, Bool.not_eq_true', Option.some.injEq] at hg h
      exact Or.inr (Or.inr (Or.inl ⟨rfl, hg.1, hg.2, h.symm⟩))
    · exact absurd h (by simp)
  | closeErr =>
    simp only [Round.step] at h
    split at h
    · rename_i hg
      simp only [Bool.and_eq_true, Bool.not_eq_true', Option.some.injEq] at hg h
      exact Or.inr (Or.inr (Or.inr (Or.inl ⟨rfl, hg.1, hg.2, h.symm⟩)))
    · exact absurd h (by simp)
  | recvPostsClosed =>
    simp only [Round.step] at h
    split at h
    · rename_i hg
      simp only [Collector.ready, Bool.and_eq_true, Option.some.injEq] at hg h
      exact Or.inr (Or.inr (Or.inr (Or.inr (Or.inl ⟨rfl, hg.1, hg.2.2, h.symm⟩))))
    · exact absurd h (by simp)
  | recvErrClosed =>
    simp only [Round.step] at h
    split at h
    · rename_i hg
      simp only [Collector.ready, Bool.and_eq_true, Option.some.injEq] at hg h
      exact Or.inr (Or.inr (Or.inr (Or.inr (Or.inr ⟨rfl, hg.1, hg.2.2, h.symm⟩))))
    · exact absurd h (by simp)

theorem flatten_set_perm {α : Type} (m : α) (rest : List α) :
    ∀ (tasks : List (List α)) (i : Nat), tasks[i]? = some (m :: rest) →
      List.Perm tasks.flatten (m :: (tasks.set i rest).flatten) := by
  intro tasks
  induction tasks with
  | nil => intro i h; simp at h
  | cons t ts ih =>
    intro i h
    cases i with
    | zero =>
      simp only [List.getElem?_cons_zero, Option.some.injEq] at h
      subst h
      simp
    | succ i =>
      simp only [List.getElem?_cons_succ] at h
      simp only [List.flatten_cons, List.set_cons_succ]
      exact (List.Perm.append_left t (ih i h)).trans List.perm_middle

theorem not_allEmpty_of_getElem {α : Type} (tasks : List (List α)) (i : Nat) (m : α)
    (rest : List α) (h : tasks[i]? = some (m :: rest)) :
    tasks.all List.isEmpty ≠ true := by
  intro hall
  rw [List.all_eq_true] at hall
  have hmem : (m :: rest) ∈ tasks := List.getElem?_mem h
  have := hall _ hmem
  simp at this

theorem arrived_post {σ : Type} (S : Store σ) (c : Collector σ) (p : Post)
    (ho : c.postsOpen = true) : (select S c (Recv.post p)).arrived = c.arrived ++ [p] := by
  obtain ⟨_, _, _, _, h5⟩ := select_post_spec S c p ho
  rcases h5 with ⟨_, hc, hb⟩ | ⟨_, hc, hb⟩
  · simp [Collector.arrived, hc, hb]
  · simp [Collector.arrived, hc, hb]

theorem arrived_postsClosed {σ : Type} (S : Store σ) (c : Collector σ)
    (ho : c.postsOpen = true) : (select S c Recv.postsClosed).arrived = c.arrived := by
  obtain ⟨_, _, _, _, hb, hc⟩ := select_postsClosed_spec S c ho
  by_cases hnil : c.batch = []
  · simp [Collector.arrived, hc, hb, hnil]
  · simp [Collector.arrived, hc, hb, hnil]

theorem step_ok {σ : Type} (S : Store σ) (r r1 : Round σ) (m : Move) (hok : r.Ok)
    (h : r.step S m = some r1) : r1.Ok := by
  rcases step_cases S r r1 m h with ⟨i, p, rest, _, hi, ho, rfl⟩ | ⟨i, e, rest, _, hi, ho, rfl⟩ |
    ⟨_, hall, hpc, rfl⟩ | ⟨_, hpc, hec, rfl⟩ | ⟨_, hpc, ho, rfl⟩ | ⟨_, hec, ho, rfl⟩
  · obtain ⟨h1, h2, h3, _, h5⟩ := select_post_spec S r.coll p ho
    have hnc : r.postsClosed ≠ true := fun hc =>
      not_allEmpty_of_getElem r.tasks i _ rest hi (hok.closed_tasks hc)
    refine ⟨fun hc => absurd hc hnc, hok.err_after, fun hc => ?_, fun hc => ?_, ?_, ?_,
      fun hc => ?_⟩
    · simp only [h1] at hc; exact absurd hc (by simp)
    · simp only [h2] at hc; exact hok.nil_err hc
    · simp only [h3]; exact hok.not_cancelled
    · rcases h5 with ⟨hlt, _, hb⟩ | ⟨_, _, hb⟩
      · simp only [hb, List.length_append, List.length_singleton]; exact hlt
      · simp only [hb]; simp [batchSize]
    · simp only [h1] at hc; exact absurd hc (by simp)
  · obtain ⟨h1, h2, h3, _, h5, _⟩ := select_err_spec S r.coll e ho
    have hnc : r.postsClosed ≠ true := fun hc =>
      not_allEmpty_of_getElem r.tasks i _ rest hi (hok.closed_tasks hc)
    refine ⟨fun hc => absurd hc hnc, hok.err_after, fun hc => ?_, fun hc => ?_, ?_, ?_,
      fun hc => ?_⟩
    · simp only [h1] at hc; exact hok.nil_posts hc
    · simp only [h2] at hc; exact absurd hc (by simp)
    · simp only [h3]; exact hok.not_cancelled
    · simp only [h5]; exact hok.batch_lt
    · simp only [h1, h5] at hc ⊢; exact hok.batch_nil hc
  · exact ⟨fun _ => hall, fun _ => rfl, fun _ => rfl, hok.nil_err, hok.not_cancelled,
      hok.batch_lt, hok.batch_nil⟩
  · exact ⟨hok.closed_tasks, fun _ => hpc, hok.nil_posts, fun _ => rfl, hok.not_cancelled,
      hok.batch_lt, hok.batch_nil⟩
  · obtain ⟨_, h2, h3, _, h5, _⟩ := select_postsClosed_spec S r.coll ho
    refine ⟨hok.closed_tasks, hok.err_after, fun _ => hpc, fun hc => ?_, ?_, ?_, fun _ => h5⟩
    · simp only [h2] at hc; exact hok.nil_err hc
    · simp only [h3]; exact hok.not_cancelled
    · simp only [h5]; simp [batchSize]
  · obtain ⟨h1, _, h3, _, h5, _⟩ := select_errClosed_spec S r.coll ho
    refine ⟨hok.closed_tasks, hok.err_after, fun hc => ?_, fun _ => hec, ?_, ?_, fun hc => ?_⟩
    · simp only [h1] at hc; exact hok.nil_posts hc
    · simp only [h3]; exact hok.not_cancelled
    · simp only [h5]; exact hok.batch_lt
    · simp only [h1, h5] at hc ⊢; exact hok.batch_nil hc

theorem step_size {σ : Type} (S : Store σ) (r r1 : Round σ) (m : Move)
    (h : r.step S m = some r1) : r1.size + 1 = r.size := by
  rcases step_cases S r r1 m h with ⟨i, p, rest, _, hi, ho, rfl⟩ | ⟨i, e, rest, _, hi, ho, rfl⟩ |
    ⟨_, hall, hpc, rfl⟩ | ⟨_, hpc, hec, rfl⟩ | ⟨_, hpc, ho, rfl⟩ | ⟨_, hec, ho, rfl⟩
  · obtain ⟨h1, h2, _⟩ := select_post_spec S r.coll p ho
    have hlen := (flatten_set_perm _ rest r.tasks i hi).length_eq
    simp only [Round.size, h1, h2, ho, hlen, List.length_cons]
    omega
  · obtain ⟨h1, h2, _⟩ := select_err_spec S r.coll e ho
    have hlen := (flatten_set_perm _ rest r.tasks i hi).length_eq
    simp only [Round.size, h1, h2, ho, hlen, List.length_cons]
    omega
  · simp only [Round.size, hpc]; simp; omega
  · simp only [Round.size, hec]; simp; omega
  · obtain ⟨h1, h2, _⟩ := select_postsClosed_spec S r.coll ho
    simp only [Round.size, h1, h2, ho]; simp; omega
  · obtain ⟨h1, h2, _⟩ := select_errClosed_spec S r.coll ho
    simp only [Round.size, h1, h2, ho]; simp

theorem step_allPosts {σ : Type} (S : Store σ) (r r1 : Round σ) (m : Move)
    (h : r.step S m = some r1) : List.Perm r1.allPosts r.allPosts := by
  rcases step_cases S r r1 m h with ⟨i, p, rest, _, hi, ho, rfl⟩ | ⟨i, e, rest, _, hi, ho, rfl⟩ |
    ⟨_, hall, hpc, rfl⟩ | ⟨_, hpc, hec, rfl⟩ | ⟨_, hpc, ho, rfl⟩ | ⟨_, hec, ho, rfl⟩
  · have hp := (flatten_set_perm _ rest r.tasks i hi).filterMap
      (fun m => match m with | TaskMsg.post p => some p | TaskMsg.err _ => none)
    simp only [Round.allPosts, arrived_post S r.coll p ho, postsOf, List.append_assoc]
    simp only [List.filterMap_cons] at hp
    exact (List.Perm.append_left _ hp.symm)
  · have hp := (flatten_set_perm _ rest r.tasks i hi).filterMap
      (fun m => match m with | TaskMsg.post p => some p | TaskMsg.err _ => none)
    obtain ⟨_, _, _, _, h5, h6⟩ := select_err_spec S r.coll e ho
    simp only [Round.allPosts, Collector.arrived, h5, h6, postsOf]
    simp only [List.filterMap_cons] at hp
    exact (List.Perm.append_left _ hp.symm)
  · exact List.Perm.refl _
  · exact List.Perm.refl _
  · simp only [Round.allPosts, arrived_postsClosed S r.coll ho]
    exact List.Perm.refl _
  · obtain ⟨_, _, _, _, h5, h6⟩ := select_errClosed_spec S r.coll ho
    simp only [Round.allPosts, Collector.arrived, h5, h6]
    exact List.Perm.refl _

theorem step_allErrs {σ : Type} (S : Store σ) (r r1 : Round σ) (m : Move)
    (h : r.step S m = some r1) : List.Perm r1.allErrs r.allErrs := by
  rcases step_cases S r r1 m h with ⟨i, p, rest, _, hi, ho, rfl⟩ | ⟨i, e, rest, _, hi, ho, rfl⟩ |
    ⟨_, hall, hpc, rfl⟩ | ⟨_, hpc, hec, rfl⟩ | ⟨_, hpc, ho, rfl⟩ | ⟨_, hec, ho, rfl⟩
  · have hp := (flatten_set_perm _ rest r.tasks i hi).filterMap
      (fun m => match m with | TaskMsg.post _ => none | TaskMsg.err e => some e)
    obtain ⟨_, _, _, h4, _⟩ := select_post_spec S r.coll p ho
    simp only [Round.allErrs, h4, errsOf]
    simp only [List.filterMap_cons] at hp
    exact (List.Perm.append_left _ hp.symm)
  · have hp := (flatten_set_perm _ rest r.tasks i hi).filterMap
      (fun m => match m with | TaskMsg.post _ => none | TaskMsg.err e => some e)
    obtain ⟨_, _, _, h4, _⟩ := select_err_spec S r.coll e ho
    simp only [Round.allErrs, h4, errsOf, List.append_assoc, List.singleton_append]
    simp only [List.filterMap_cons] at hp
    exact (List.Perm.append_left _ hp.symm)
  · exact List.Perm.refl _
  · exact List.Perm.refl _
  · obtain ⟨_, _, _, h4, _⟩ := select_postsClosed_spec S r.coll ho
    simp only [Round.allErrs, h4]
    exact List.Perm.refl _
  · obtain ⟨_, _, _, h4, _⟩ := select_errClosed_spec S r.coll ho
    simp only [Round.allErrs, h4]
    exact List.Perm.refl _

theorem step_store {σ : Type} (S : Store σ) (st : σ) (r r1 : Round σ) (m : Move)
    (hs : r.coll.store = replay S st r.coll.calls) (h : r.step S m = some r1) :
    r1.coll.store = replay S st r1.coll.calls := by
  rcases step_cases S r r1 m h with ⟨i, p, rest, _, hi, ho, rfl⟩ | ⟨i, e, rest, _, hi, ho, rfl⟩ |
    ⟨_, hall, hpc, rfl⟩ | ⟨_, hpc, hec, rfl⟩ | ⟨_, hpc, ho, rfl⟩ | ⟨_, hec, ho, rfl⟩
  · exact select_store S st r.coll _ hs
  · exact select_store S st r.coll _ hs
  · exact hs
  · exact hs
  · exact select_store S st r.coll _ hs
  · exact select_store S st r.coll _ hs

theorem fromFeed_snoc (arrived : List Post) (labels : List Nat) (p : Post) (i j : Nat)
    (hlen : labels.length = arrived.length) :
    fromFeed (arrived ++ [p]) (labels ++ [i]) j =
      fromFeed arrived labels j ++ (if i = j then [p] else []) := by
  unfold fromFeed
  rw [List.zip_append hlen.symm, List.filter_append, List.map_append]
  congr 1
  by_cases hij : i = j
  · simp [hij]
  · simp [hij]

theorem fromFeed_sublist (arrived : List Post) (labels : List Nat) (i : Nat)
    (hlen : labels.length = arrived.length) :
    List.Sublist (fromFeed arrived labels i) arrived := by
  have h := (List.filter_sublist (p := fun x : Post × Nat => decide (x.2 = i))
    (arrived.zip labels)).map Prod.fst
  rw [List.map_fst_zip arrived labels (by omega)] at h
  exact h

theorem step_labelled {σ : Type} (S : Store σ) (full : Nat → List Post) (r r1 : Round σ)
    (m : Move) (hin : r.labelled full) (h : r.step S m = some r1) : r1.labelled full := by
  obtain ⟨labels, hlen, hall⟩ := hin
  rcases step_cases S r r1 m h with ⟨i, p, rest, _, hi, ho, rfl⟩ | ⟨i, e, rest, _, hi, ho, rfl⟩ |
    ⟨_, _, _, rfl⟩ | ⟨_, _, _, rfl⟩ | ⟨_, _, ho, rfl⟩ | ⟨_, _, ho, rfl⟩
  · have hlt : i < r.tasks.length := by
      rcases List.getElem?_eq_some.mp hi with ⟨hlt, _⟩
      exact hlt
    refine ⟨labels ++ [i], ?_, ?_⟩
    · simp only [arrived_post S r.coll p ho, List.length_append, List.length_singleton, hlen]
    · intro j
      simp only [arrived_post S r.coll p ho]
      rw [fromFeed_snoc _ _ _ _ _ hlen]
      have hj := hall j
      by_cases hij : i = j
      · subst hij
        simp only [hi, Option.getD_some, postsOf, List.filterMap_cons] at hj
        simp only [List.getElem?_set_self hlt, Option.getD_some, postsOf, if_true,
          List.append_assoc, List.singleton_append]
        exact hj
      · simp only [List.getElem?_set_ne hij, hij, if_false, List.append_nil]
        exact hj
  · have hlt : i < r.tasks.length := by
      rcases List.getElem?_eq_some.mp hi with ⟨hlt, _⟩
      exact hlt
    obtain ⟨_, _, _, _, h5, h6⟩ := select_err_spec S r.coll e ho
    have harr : (select S r.coll (Recv.err e)).arrived = r.coll.arrived := by
      simp only [Collector.arrived, h5, h6]
    refine ⟨labels, by simp only [harr]; exact hlen, ?_⟩
    intro j
    simp only [harr]
    have hj := hall j
    by_cases hij : i = j
    · subst hij
      simp only [hi, Option.getD_some, postsOf, List.filterMap_cons] at hj
      simp only [List.getElem?_set_self hlt, Option.getD_some, postsOf]
      exact hj
    · simp only [List.getElem?_set_ne hij]
      exact hj
  · exact ⟨labels, hlen, hall⟩
  · exact ⟨labels, hlen, hall⟩
  · refine ⟨labels, ?_, ?_⟩
    · simp only [arrived_postsClosed S r.coll ho]; exact hlen
    · intro j
      simp only [arrived_postsClosed S r.coll ho]
      exact hall j
  · obtain ⟨_, _, _, _, h5, h6⟩ := select_errClosed_spec S r.coll ho
    have harr : (select S r.coll Recv.errClosed).arrived = r.coll.arrived := by
      simp only [Collector.arrived, h5, h6]
    refine ⟨labels, by simp only [harr]; exact hlen, ?_⟩
    intro j
    simp only [harr]
    exact hall j

theorem progress {σ : Type} (S : Store σ) (r : Round σ) (hok : r.Ok)
    (hrun : r.coll.running = true) : ∃ m ∈ r.moves, (r.step S m).isSome = true := by
  by_cases hall : r.tasks.all List.isEmpty = true
  · by_cases hpc : r.postsClosed = true
    · by_cases hec : r.errClosed = true
      · by_cases hpo : r.coll.postsOpen = true
        · refine ⟨Move.recvPostsClosed, by simp [Round.moves], ?_⟩
          simp [Round.step, Collector.ready, hpc, hpo, hrun]
        · have heo : r.coll.errOpen = true := by
            simp only [Collector.running, Bool.and_eq_true, Bool.or_eq_true] at hrun
            rcases hrun.1 with h | h
            · exact absurd h hpo
            · exact h
          refine ⟨Move.recvErrClosed, by simp [Round.moves], ?_⟩
          simp [Round.step, Collector.ready, hec, heo, hrun]
      · refine ⟨Move.closeErr, by simp [Round.moves], ?_⟩
        simp [Round.step, hpc, hec]
    · refine ⟨Move.closePosts, by simp [Round.moves], ?_⟩
      simp only [Round.step, hall, Bool.true_and]
      simp [hpc]
  · have hpc : r.postsClosed ≠ true := fun h => hall (hok.closed_tasks h)
    have hec : r.errClosed ≠ true := fun h => hpc (hok.err_after h)
    have hpo : r.coll.postsOpen = true := by
      by_contra h
      exact hpc (hok.nil_posts (by simpa using h))
    have heo : r.coll.errOpen = true := by
      by_contra h
      exact hec (hok.nil_err (by simpa using h))
    have hex : ∃ t ∈ r.tasks, t.isEmpty = false := by
      by_contra hne
      apply hall
      rw [List.all_eq_true]
      intro t ht
      by_contra hte
      exact hne ⟨t, ht, by simpa using hte⟩
    obtain ⟨t, ht, hte⟩ := hex
    obtain ⟨i, hi⟩ := List.mem_iff_getElem?.mp ht
    have hlt : i < r.tasks.length := by
      rcases List.getElem?_eq_some.mp hi with ⟨hlt, _⟩
      exact hlt
    refine ⟨Move.send i, ?_, ?_⟩
    · simp only [Round.moves, List.mem_append, List.mem_map, List.mem_range]
      exact Or.inl ⟨i, hlt, rfl⟩
    · cases t with
      | nil => simp at hte
      | cons msg rest =>
        cases msg with
        | post p => simp [Round.step, hi, TaskMsg.toRecv, Collector.ready, hrun, hpo]
        | err e => simp [Round.step, hi, TaskMsg.toRecv, Collector.ready, hrun, heo]

theorem enabled_nonempty {σ : Type} (S : Store σ) (r : Round σ) (hok : r.Ok)
    (hrun : r.coll.running = true) : r.enabled S ≠ [] := by
  obtain ⟨m, hm, hs⟩ := progress S r hok hrun
  intro hnil
  have : m ∈ r.enabled S := by
    simp only [Round.enabled, List.mem_filter]
    exact ⟨hm, hs⟩
  rw [hnil] at this
  simp at this

theorem run_invariant {σ : Type} (S : Store σ) (sched : Nat → Nat) (I : Round σ → Prop)
    (hstep : ∀ r m r1, r.Ok → I r → r.step S m = some r1 → I r1) :
    ∀ (fuel k : Nat) (r : Round σ), r.Ok → I r →
      (Round.run S sched fuel k r).Ok ∧ I (Round.run S sched fuel k r) := by
  intro fuel
  induction fuel with
  | zero => intro k r hok hi; exact ⟨hok, hi⟩
  | succ fuel ih =>
    intro k r hok hi
    simp only [Round.run]
    split
    · exact ⟨hok, hi⟩
    · split
      · exact ⟨hok, hi⟩
      · rename_i m _ r1 hs
        exact ih (k + 1) r1 (step_ok S r r1 _ hok hs) (hstep r _ r1 hok hi hs)

theorem run_stops {σ : Type} (S : Store σ) (sched : Nat → Nat) :
    ∀ (fuel k : Nat) (r : Round σ), r.Ok → r.size ≤ fuel →
      (Round.run S sched fuel k r).coll.running = false := by
  intro fuel
  induction fuel with
  | zero =>
    intro k r _ hsz
    simp only [Round.run]
    simp only [Round.size] at hsz
    have hpo : r.coll.postsOpen = false := by
      by_contra h
      simp only [Bool.not_eq_false] at h
      simp only [h, if_true] at hsz
      omega
    have heo : r.coll.errOpen = false := by
      by_contra h
      simp only [Bool.not_eq_false] at h
      simp only [h, if_true] at hsz
      omega
    simp [Collector.running, hpo, heo]
  | succ fuel ih =>
    intro k r hok hsz
    simp only [Round.run]
    split
    · rename_i hnone
      by_contra hrun
      simp only [Bool.not_eq_false] at hrun
      have hne := enabled_nonempty S r hok hrun
      have hpos : 0 < (r.enabled S).length := List.length_pos.mpr hne
      have hlt : sched k % (r.enabled S).length < (r.enabled S).length := Nat.mod_lt _ hpos
      rw [List.getElem?_eq_none_iff] at hnone
      omega
    · rename_i m hm
      have hmem : m ∈ r.enabled S := List.getElem?_mem hm
      simp only [Round.enabled, List.mem_filter] at hmem
      split
      · rename_i hs
        rw [hs] at hmem
        simp at hmem
      · rename_i r1 hs
        have := step_size S r r1 m hs
        exact ih (k + 1) r1 (step_ok S r r1 m hok hs) (by omega)

theorem postsOf_taskSends (url : String) (res : Except String (List Item)) :
    postsOf (taskSends url res) =
      (match res with
        | .ok items => items.map toPost
        | .error _ => []) := by
  cases res with
  | error e => simp [taskSends, postsOf]
  | ok items =>
    simp only [taskSends, postsOf]
    induction items with
    | nil => rfl
    | cons it rest ih => simp [List.filterMap_cons, ih]

theorem errsOf_taskSends (url : String) (res : Except String (List Item)) :
    errsOf (taskSends url res) =
      (match res with
        | .ok _ => []
        | .error e => ["fetch " ++ url ++ ": " ++ e]) := by
  cases res with
  | error e => simp [taskSends, errsOf]
  | ok items =>
    simp only [taskSends, errsOf]
    induction items with
    | nil => rfl
    | cons it rest ih => simp [List.filterMap_cons, ih]

theorem init_allPosts {σ : Type} (st : σ) (feeds : List Feed) :
    (Round.init st feeds).allPosts = successPosts feeds := by
  simp only [Round.allPosts, Round.init, Collector.init, Collector.arrived, List.flatten_nil,
    List.nil_append, successPosts]
  induction feeds with
  | nil => rfl
  | cons f fs ih =>
    simp only [List.map_cons, List.flatten_cons, postsOf, List.filterMap_append] at ih ⊢
    rw [ih]
    have := postsOf_taskSends f.url (Fetch f.world f.url)
    simp only [postsOf] at this
    rw [this]

theorem init_allErrs {σ : Type} (st : σ) (feeds : List Feed) :
    (Round.init st feeds).allErrs = failures feeds := by
  simp only [Round.allErrs, Round.init, Collector.init, fetchLogs, List.filterMap_nil,
    List.nil_append, failures]
  induction feeds with
  | nil => rfl
  | cons f fs ih =>
    simp only [List.map_cons, List.flatten_cons, errsOf, List.filterMap_append,
      List.filterMap_cons] at ih ⊢
    rw [ih]
    have := errsOf_taskSends f.url (Fetch f.world f.url)
    simp only [errsOf] at this
    rw [this]
    cases Fetch f.world f.url <;> simp

theorem init_ok {σ : Type} (st : σ) (feeds : List Feed) : (Round.init st feeds).Ok := by
  refine ⟨?_, ?_, ?_, ?_, rfl, ?_, ?_⟩ <;> simp [Round.init, Collector.init, batchSize]

theorem init_size {σ : Type} (st : σ) (feeds : List Feed) :
    (Round.init st feeds).size = roundSteps feeds := by
  have hp := congrArg List.length (init_allPosts st feeds)
  have he := congrArg List.length (init_allErrs st feeds)
  simp only [Round.allPosts, Round.allErrs, List.length_append] at hp he
  have ha : (Round.init st feeds).coll.arrived = [] := rfl
  have hl : fetchLogs (Round.init st feeds).coll.logs = [] := rfl
  rw [ha] at hp
  rw [hl] at he
  simp only [List.length_nil, Nat.zero_add] at hp he
  have hsplit : ∀ ms : List TaskMsg, ms.length = (postsOf ms).length + (errsOf ms).length := by
    intro ms
    induction ms with
    | nil => rfl
    | cons m ms ih =>
      cases m with
      | post p => simp [postsOf, errsOf] at ih ⊢; omega
      | err e => simp [postsOf, errsOf] at ih ⊢; omega
  have hs := hsplit (Round.init st feeds).tasks.flatten
  have h1 : (Round.init st feeds).postsClosed = false := rfl
  have h2 : (Round.init st feeds).errClosed = false := rfl
  have h3 : (Round.init st feeds).coll.postsOpen = true := rfl
  have h4 : (Round.init st feeds).coll.errOpen = true := rfl
  simp only [Round.size, roundSteps, h1, h2, h3, h4, hs, hp, he]
  simp

theorem failures_length (feeds : List Feed) :
    (failures feeds).length = (feeds.filter Feed.failed).length := by
  induction feeds with
  | nil => rfl
  | cons f fs ih =>
    unfold failures at ih ⊢
    rw [List.filterMap_cons, List.filter_cons]
    cases hres : Fetch f.world f.url with
    | error e => simp [Feed.failed, hres, ih]
    | ok items => simp [Feed.failed, hres, ih]

theorem allEmpty_getD {α : Type} (tasks : List (List α)) (i : Nat)
    (h : tasks.all List.isEmpty = true) : tasks[i]?.getD [] = [] := by
  cases hi : tasks[i]? with
  | none => rfl
  | some t =>
    rw [List.all_eq_true] at h
    have := h t (List.getElem?_mem hi)
    simpa using this

theorem allEmpty_flatten {α : Type} (tasks : List (List α))
    (h : tasks.all List.isEmpty = true) : tasks.flatten = [] := by
  rw [List.all_eq_true] at h
  induction tasks with
  | nil => rfl
  | cons t ts ih =>
    have ht := h t (List.mem_cons_self _ _)
    have hts := ih (fun x hx => h x (List.mem_cons_of_mem _ hx))
    simp only [List.isEmpty_iff] at ht
    simp [ht, hts]

theorem stopped_completed {σ : Type} (r : Round σ) (hok : r.Ok)
    (hstop : r.coll.running = false) :
    r.completed = true ∧ r.tasks.all List.isEmpty = true ∧ r.coll.batch = [] := by
  have hnc := hok.not_cancelled
  simp only [Collector.running, hnc, Bool.not_false, Bool.and_true, Bool.or_eq_false_iff]
    at hstop
  have hpc := hok.nil_posts hstop.1
  have hec := hok.nil_err hstop.2
  have hall := hok.closed_tasks hpc
  refine ⟨?_, hall, hok.batch_nil hstop.1⟩
  simp [Round.completed, Collector.running, hstop.1, hstop.2, hpc, hec, hall]

theorem entries_length (w : World) : ∀ (l : List rssItem) (i : Nat),
    (entries w i l).length = l.length := by
  intro l
  induction l with
  | nil => intro i; rfl
  | cons x xs ih => intro i; simp [entries, ih]

theorem entries_getElem (w : World) : ∀ (l : List rssItem) (i k : Nat) (x : rssItem),
    l[k]? = some x → (entries w i l)[k]? = some (entry w (i + k) x) := by
  intro l
  induction l with
  | nil => intro i k x h; simp at h
  | cons y ys ih =>
    intro i k x h
    cases k with
    | zero =>
      simp only [List.getElem?_cons_zero, Option.some.injEq] at h
      subst h
      simp [entries]
    | succ k =>
      simp only [List.getElem?_cons_succ] at h
      simp only [entries, List.getElem?_cons_succ]
      rw [ih (i + 1) k x h]
      congr 2
      omega

theorem Fetch_ok (w : World) (url : String) (resp : Response) (body : String) (doc : rssFeed)
    (hreq : w.newRequest url = none) (hdo : w.clientDo url = .ok resp)
    (hstatus : resp.StatusCode = 200) (hbody : resp.Body = .ok body)
    (hxml : w.xmlUnmarshal body = .ok doc) :
    Fetch w url = .ok (entries w 0 doc.Items) := by
  simp [Fetch, hreq, hdo, hstatus, hbody, hxml]

theorem run_results {σ : Type} (S : Store σ) (st : σ) (feeds : List Feed) (sched : Nat → Nat)
    (fuel : Nat) (hfuel : roundSteps feeds ≤ fuel) :
    (runOnce S st feeds sched fuel).Ok ∧
    (runOnce S st feeds sched fuel).coll.running = false ∧
    List.Perm (runOnce S st feeds sched fuel).allPosts (successPosts feeds) ∧
    List.Perm (runOnce S st feeds sched fuel).allErrs (failures feeds) ∧
    (runOnce S st feeds sched fuel).coll.store =
      replay S st (runOnce S st feeds sched fuel).coll.calls := by
  have hok := init_ok st feeds
  have hstop := run_stops S sched fuel 0 (Round.init st feeds) hok
    (by rw [init_size]; exact hfuel)
  have hposts := run_invariant S sched (fun r => List.Perm r.allPosts (successPosts feeds))
    (fun r m r1 _ hi hs => (step_allPosts S r r1 m hs).trans hi) fuel 0 (Round.init st feeds) hok
    (by show List.Perm _ _; rw [init_allPosts])
  have herrs := run_invariant S sched (fun r => List.Perm r.allErrs (failures feeds))
    (fun r m r1 _ hi hs => (step_allErrs S r r1 m hs).trans hi) fuel 0 (Round.init st feeds) hok
    (by show List.Perm _ _; rw [init_allErrs])
  have hstore := run_invariant S sched (fun r => r.coll.store = replay S st r.coll.calls)
    (fun r m r1 _ hi hs => step_store S st r r1 m hi hs) fuel 0 (Round.init st feeds) hok rfl
  exact ⟨hposts.1, hstop, hposts.2, herrs.2, hstore.2⟩

theorem successPosts_items (feeds : List Feed) :
    successPosts feeds = (successItems feeds).map toPost := by
  unfold successPosts successItems
  induction feeds with
  | nil => rfl
  | cons f fs ih =>
    simp only [List.map_cons, List.flatten_cons, List.map_append, ih]
    cases Fetch f.world f.url <;> simp

/-- C3: for every store, every list of feeds (each fetch failing or succeeding),
every scheduler of the goroutines and enough fuel, a round without cancellation
completes; the posts handed to `SavePosts` over the round are, as a multiset,
exactly the entries of the feeds whose fetch succeeded, each as a post with the
title, description, link and publication time of the entry, id 0 and the zero
creation time; the fetch failures logged are exactly the failures of the feeds
whose fetch failed, one per such feed; and the store is the result of exactly
these `SavePosts` calls. -/
theorem runOnce_failure_isolation {σ : Type} (S : Store σ) (st : σ) (feeds : List Feed)
    (sched : Nat → Nat) (fuel : Nat) (hfuel : roundSteps feeds ≤ fuel) :
    (runOnce S st feeds sched fuel).completed = true ∧
    List.Perm (runOnce S st feeds sched fuel).coll.calls.flatten (successPosts feeds) ∧
    List.Perm (runOnce S st feeds sched fuel).coll.calls.flatten
      ((successItems feeds).map (fun it =>
        ({ ID := 0, Title := it.Title, Description := it.Description, Link := it.Link,
           PublishedAt := it.PublishedAt, CreatedAt := Time.zero } : Post))) ∧
    List.Perm (fetchLogs (runOnce S st feeds sched fuel).coll.logs) (failures feeds) ∧
    (fetchLogs (runOnce S st feeds sched fuel).coll.logs).length =
      (feeds.filter Feed.failed).length ∧
    (runOnce S st feeds sched fuel).coll.store =
      replay S st (runOnce S st feeds sched fuel).coll.calls := by
  obtain ⟨hok, hstop, hposts, herrs, hstore⟩ := run_results S st feeds sched fuel hfuel
  obtain ⟨hdone, hall, hbatch⟩ := stopped_completed _ hok hstop
  have hflat := allEmpty_flatten _ hall
  simp only [Round.allPosts, Collector.arrived, hbatch, hflat, postsOf, List.filterMap_nil,
    List.append_nil] at hposts
  simp only [Round.allErrs, hflat, errsOf, List.filterMap_nil, List.append_nil] at herrs
  have hfields : List.Perm (runOnce S st feeds sched fuel).coll.calls.flatten
      ((successItems feeds).map (fun it =>
        ({ ID := 0, Title := it.Title, Description := it.Description, Link := it.Link,
           PublishedAt := it.PublishedAt, CreatedAt := Time.zero } : Post))) := by
    have h := hposts
    rw [successPosts_items] at h
    exact h
  exact ⟨hdone, hposts, hfields, herrs, by rw [herrs.length_eq, failures_length], hstore⟩

/-- C3, an instance: feed A answers 500, feed B yields the three entries X, Y,
Z, the goroutines are scheduled by `k ↦ 3 k + 1`: the posts saved are the three
posts of B with their fields, and one failure is logged. -/
theorem runOnce_failure_isolation_witness :
    roundSteps sampleFeeds ≤ 8 ∧
    (runOnce sampleStore 0 sampleFeeds (fun k => 3 * k + 1) 8).completed = true ∧
    List.Perm (runOnce sampleStore 0 sampleFeeds (fun k => 3 * k + 1) 8).coll.calls.flatten
      samplePostsXYZ ∧
    (fetchLogs (runOnce sampleStore 0 sampleFeeds (fun k => 3 * k + 1) 8).coll.logs).length =
      1 :=
  have h := runOnce_failure_isolation sampleStore 0 sampleFeeds (fun k => 3 * k + 1) 8
    (by decide)
  ⟨by decide, h.1, h.2.2.1.trans (List.Perm.of_eq (by decide)),
    h.2.2.2.2.1.trans (by decide)⟩

theorem init_labelled {σ : Type} (st : σ) (feeds : List Feed) :
    (Round.init st feeds).labelled (feedPosts feeds) := by
  refine ⟨[], rfl, ?_⟩
  intro i
  have harr : (Round.init st feeds).coll.arrived = [] := rfl
  simp only [harr, fromFeed, List.zip_nil_right, List.filter_nil, List.map_nil, List.nil_append,
    Round.init, List.getElem?_map, feedPosts]
  cases hi : feeds[i]? with
  | none => rfl
  | some f =>
    simp only [Option.map_some', Option.getD_some]
    exact postsOf_taskSends f.url (Fetch f.world f.url)

theorem entries_posts (w : World) : ∀ (l : List rssItem) (i : Nat),
    (entries w i l).map toPost =
      (l.enumFrom i).map (fun kx =>
        ({ ID := 0, Title := TrimSpace kx.2.Title, Description := TrimSpace kx.2.Description,
           Link := TrimSpace kx.2.Link,
           PublishedAt := (parsePubDate w.timeParse (w.now kx.1) kx.2.PubDate).1,
           CreatedAt := Time.zero } : Post)) := by
  intro l
  induction l with
  | nil => intro i; rfl
  | cons x xs ih =>
    intro i
    simp only [entries, List.map_cons, List.enumFrom_cons, ih (i + 1)]
    rfl

/-- C4: for every store, feeds, scheduler and enough fuel, and every feed whose
request succeeds with status 200 and a body that decodes to a document `doc`:
`Fetch` returns one entry per item of `doc`, the entry at position `k` made from
the item at position `k`; the posts handed to `SavePosts` in a round without
cancellation can be labelled with the feed each came from so that the posts
from every feed, in the order of the concatenation of the batches, are exactly
the posts of that feed in the order of its fetch. For this feed they are, in
document order, one post per item, with the trimmed title, description and link
of the item, its publication time as `parsePubDate` resolves it, id 0 and the
zero creation time; so these posts are, in this order, a subsequence of the
concatenation of the batches. -/
theorem runOnce_feed_order {σ : Type} (S : Store σ) (st : σ) (feeds : List Feed)
    (sched : Nat → Nat) (fuel : Nat) (hfuel : roundSteps feeds ≤ fuel)
    (i : Nat) (f : Feed) (resp : Response) (body : String) (doc : rssFeed)
    (hi : feeds[i]? = some f)
    (hreq : f.world.newRequest f.url = none) (hdo : f.world.clientDo f.url = .ok resp)
    (hstatus : resp.StatusCode = 200) (hbody : resp.Body = .ok body)
    (hxml : f.world.xmlUnmarshal body = .ok doc) :
    Fetch f.world f.url = .ok (entries f.world 0 doc.Items) ∧
    (entries f.world 0 doc.Items).length = doc.Items.length ∧
    (∀ k x, doc.Items[k]? = some x →
      (entries f.world 0 doc.Items)[k]? = some (entry f.world k x)) ∧
    (∃ labels : List Nat,
      labels.length = (runOnce S st feeds sched fuel).coll.calls.flatten.length ∧
      (∀ j, fromFeed (runOnce S st feeds sched fuel).coll.calls.flatten labels j =
        feedPosts feeds j) ∧
      fromFeed (runOnce S st feeds sched fuel).coll.calls.flatten labels i =
        (entries f.world 0 doc.Items).map toPost ∧
      fromFeed (runOnce S st feeds sched fuel).coll.calls.flatten labels i =
        doc.Items.enum.map (fun kx =>
          ({ ID := 0, Title := TrimSpace kx.2.Title,
             Description := TrimSpace kx.2.Description, Link := TrimSpace kx.2.Link,
             PublishedAt :=
               (parsePubDate f.world.timeParse (f.world.now kx.1) kx.2.PubDate).1,
             CreatedAt := Time.zero } : Post))) ∧
    List.Sublist ((entries f.world 0 doc.Items).map toPost)
      (runOnce S st feeds sched fuel).coll.calls.flatten ∧
    List.Sublist
      (doc.Items.enum.map (fun kx =>
        ({ ID := 0, Title := TrimSpace kx.2.Title,
           Description := TrimSpace kx.2.Description, Link := TrimSpace kx.2.Link,
           PublishedAt := (parsePubDate f.world.timeParse (f.world.now kx.1) kx.2.PubDate).1,
           CreatedAt := Time.zero } : Post)))
      (runOnce S st feeds sched fuel).coll.calls.flatten := by
  have hfetch := Fetch_ok f.world f.url resp body doc hreq hdo hstatus hbody hxml
  have hfeed : feedPosts feeds i = (entries f.world 0 doc.Items).map toPost := by
    simp only [feedPosts, hi, hfetch]
  have hdoc := entries_posts f.world doc.Items 0
  obtain ⟨hok, hstop, _, _, _⟩ := run_results S st feeds sched fuel hfuel
  obtain ⟨_, hall, hbatch⟩ := stopped_completed _ hok hstop
  have hfin := run_invariant S sched (fun r => r.labelled (feedPosts feeds))
    (fun r m r1 _ hin hs => step_labelled S _ r r1 m hin hs) fuel 0 (Round.init st feeds)
    (init_ok st feeds) (init_labelled st feeds)
  obtain ⟨labels, hlen, hlab⟩ := hfin.2
  have hrun : Round.run S sched fuel 0 (Round.init st feeds) =
      runOnce S st feeds sched fuel := rfl
  rw [hrun] at hlen hlab
  have harr : (runOnce S st feeds sched fuel).coll.arrived =
      (runOnce S st feeds sched fuel).coll.calls.flatten := by
    simp only [Collector.arrived, hbatch, List.append_nil]
  rw [harr] at hlen hlab
  have hlab1 : ∀ j, fromFeed (runOnce S st feeds sched fuel).coll.calls.flatten labels j =
      feedPosts feeds j := by
    intro j
    have := hlab j
    rw [allEmpty_getD _ j hall] at this
    simpa [postsOf] using this
  have hsub := fromFeed_sublist _ labels i hlen
  rw [hlab1 i, hfeed] at hsub
  refine ⟨hfetch, entries_length _ _ _, ?_, ⟨labels, hlen, hlab1, ?_, ?_⟩, hsub, ?_⟩
  · intro k x hk
    have := entries_getElem f.world doc.Items 0 k x hk
    simpa using this
  · rw [hlab1 i, hfeed]
  · rw [hlab1 i, hfeed, hdoc]
    rfl
  · rw [hdoc] at hsub
    exact hsub

/-- C4, an instance: feed B of the examples, with items X, Y, Z: the three
posts with their fields are, in this order, among the posts saved. -/
theorem runOnce_feed_order_witness :
    roundSteps sampleFeeds ≤ 8 ∧
    List.Sublist samplePostsXYZ
      (runOnce sampleStore 0 sampleFeeds (fun k => 2 * k) 8).coll.calls.flatten :=
  ⟨by decide,
    (runOnce_feed_order sampleStore 0 sampleFeeds (fun k => 2 * k) 8 (by decide) 1
      { url := "http://b", world := worldDoc sampleDoc }
      { StatusCode := 200, Body := .ok "<rss/>" } "<rss/>" sampleDoc rfl rfl rfl rfl rfl
      rfl).2.2.2.2.2⟩

/-! ## The store -/

theorem execLoop_spec (f : Faults) (now : Time) : ∀ (posts : List Post) (k : Nat) (d : DB),
    (execLoop f now posts k d).1.committed = d.committed ∧
    (∃ calls, (execLoop f now posts k d).1.trace = d.trace ++ calls ∧
      ∀ c ∈ calls, ∃ a ok, c = DBCall.exec a ok) ∧
    ((execLoop f now posts k d).2 = none →
      ∀ j, j < (withLinks posts).length → f.exec (k + j) = none) := by
  intro posts
  induction posts with
  | nil =>
    intro k d
    exact ⟨rfl, ⟨[], by simp [execLoop], by simp⟩, fun _ j hj => by simp [withLinks] at hj⟩
  | cons p ps ih =>
    intro k d
    by_cases hl : p.Link = ""
    · have hw : withLinks (p :: ps) = withLinks ps := by simp [withLinks, hl]
      simp only [execLoop, hl, if_true, hw]
      exact ih k d
    · have hw : withLinks (p :: ps) = p :: withLinks ps := by simp [withLinks, hl]
      simp only [execLoop, hl, if_false, hw]
      cases hk : f.exec k with
      | some e =>
        simp only [DB.ExecContext, hk]
        refine ⟨trivial, ⟨[DBCall.exec (UpsertArgs.ofPost p) false], rfl, ?_⟩, ?_⟩
        · intro c hc
          simp only [List.mem_singleton] at hc
          exact ⟨_, _, hc⟩
        · intro h; simp at h
      | none =>
        simp only [DB.ExecContext, hk]
        obtain ⟨h1, ⟨calls, h2, h3⟩, h4⟩ := ih (k + 1)
          { d with tx := d.tx.map (fun t => upsert now t (UpsertArgs.ofPost p)),
                   trace := d.trace ++ [DBCall.exec (UpsertArgs.ofPost p) true] }
        refine ⟨h1, ⟨DBCall.exec (UpsertArgs.ofPost p) true :: calls, ?_, ?_⟩, ?_⟩
        · rw [h2]; simp
        · intro c hc
          rcases List.mem_cons.mp hc with hc | hc
          · exact ⟨_, _, hc⟩
          · exact h3 c hc
        · intro hnone j hj
          cases j with
          | zero => exact hk
          | succ j =>
            have := h4 hnone j (by simpa using hj)
            rw [← this]
            congr 1
            omega

theorem execLoop_noFault (f : Faults) (now : Time) :
    ∀ (posts : List Post) (k : Nat) (d : DB),
      (∀ j, j < (withLinks posts).length → f.exec (k + j) = none) →
      execLoop f now posts k d =
        ({ d with tx := d.tx.map (fun t => upsertAll now t ((withLinks posts).map UpsertArgs.ofPost)),
                  trace := d.trace ++
                    ((withLinks posts).map UpsertArgs.ofPost).map (fun a => DBCall.exec a true) },
          none) := by
  intro posts
  induction posts with
  | nil =>
    intro k d _
    cases d with
    | mk c tx tr => cases tx <;> simp [execLoop, withLinks, upsertAll]
  | cons p ps ih =>
    intro k d hf
    by_cases hl : p.Link = ""
    · have hw : withLinks (p :: ps) = withLinks ps := by simp [withLinks, hl]
      rw [hw] at hf
      simp only [execLoop, hl, if_true, hw]
      exact ih k d hf
    · have hw : withLinks (p :: ps) = p :: withLinks ps := by simp [withLinks, hl]
      rw [hw] at hf
      have h0 : f.exec k = none := hf 0 (by simp)
      have hrest : ∀ j, j < (withLinks ps).length → f.exec (k + 1 + j) = none := by
        intro j hj
        have := hf (j + 1) (by simpa using hj)
        rw [← this]
        congr 1
        omega
      simp only [execLoop, hl, if_false, hw, DB.ExecContext, h0]
      rw [ih _ _ hrest]
      cases d with
      | mk c tx tr => cases tx <;> simp [upsertAll]

theorem SavePosts_shape (f : Faults) (now : Time) (t : Table) (posts : List Post) :
    (posts = [] ∧ SavePosts f now (DB.ofTable t) posts = (DB.ofTable t, none)) ∨
    (posts ≠ [] ∧ ∃ e, f.begin = some e ∧
      SavePosts f now (DB.ofTable t) posts =
        ({ committed := t, tx := none, trace := [DBCall.beginTx false] },
          some ("begin tx: " ++ e))) ∨
    (posts ≠ [] ∧ f.begin = none ∧ ∃ e, f.prepare = some e ∧
      SavePosts f now (DB.ofTable t) posts =
        ({ committed := t, tx := none,
           trace := [DBCall.beginTx true, DBCall.prepare false, DBCall.rollback] },
          some ("prepare statement: " ++ e))) ∨
    (posts ≠ [] ∧ f.begin = none ∧ f.prepare = none ∧
      (¬ ∀ j, j < (withLinks posts).length → f.exec j = none) ∧
      ∃ e calls, (∀ c ∈ calls, ∃ a ok, c = DBCall.exec a ok) ∧
      SavePosts f now (DB.ofTable t) posts =
        ({ committed := t, tx := none,
           trace := [DBCall.beginTx true, DBCall.prepare true] ++ calls ++
             [DBCall.stmtClose, DBCall.rollback] },
          some ("insert post: " ++ e))) ∨
    (posts ≠ [] ∧ f.begin = none ∧ f.prepare = none ∧
      (∀ j, j < (withLinks posts).length → f.exec j = none) ∧
      ∃ e, f.commit = some e ∧
      SavePosts f now (DB.ofTable t) posts =
        ({ committed := t, tx := none,
           trace := [DBCall.beginTx true, DBCall.prepare true] ++
             ((withLinks posts).map UpsertArgs.ofPost).map (fun a => DBCall.exec a true) ++
             [DBCall.commit false, DBCall.stmtClose, DBCall.rollback] },
          some ("commit tx: " ++ e))) ∨
    (posts ≠ [] ∧ f.begin = none ∧ f.prepare = none ∧
      (∀ j, j < (withLinks posts).length → f.exec j = none) ∧ f.commit = none ∧
      SavePosts f now (DB.ofTable t) posts =
        ({ committed := upsertAll now t ((withLinks posts).map UpsertArgs.ofPost), tx := none,
           trace := [DBCall.beginTx true, DBCall.prepare true] ++
             ((withLinks posts).map UpsertArgs.ofPost).map (fun a => DBCall.exec a true) ++
             [DBCall.commit true, DBCall.stmtClose] },
          none)) := by
  by_cases hnil : posts = []
  · left
    subst hnil
    exact ⟨rfl, rfl⟩
  · right
    have hlen : ¬ posts.length = 0 := fun h => hnil (List.length_eq_zero.mp h)
    cases hb : f.begin with
    | some e =>
      left
      refine ⟨hnil, e, rfl, ?_⟩
      simp [SavePosts, hlen, DB.BeginTx, hb, DB.ofTable]
    | none =>
      right
      cases hp : f.prepare with
      | some e =>
        left
        refine ⟨hnil, rfl, e, rfl, ?_⟩
        simp [SavePosts, hlen, DB.BeginTx, hb, DB.ofTable, DB.PrepareContext, hp, deferRollback,
          DB.Rollback]
      | none =>
        right
        by_cases hx : ∀ j, j < (withLinks posts).length → f.exec j = none
        · right
          have hloop := execLoop_noFault f now posts 0
            { committed := t, tx := some t,
              trace := [DBCall.beginTx true, DBCall.prepare true] }
            (by simpa using hx)
          cases hc : f.commit with
          | some e =>
            left
            refine ⟨hnil, rfl, rfl, hx, e, rfl, ?_⟩
            simp [SavePosts, hlen, DB.BeginTx, hb, DB.ofTable, DB.PrepareContext, hp, hloop,
              DB.Commit, hc, deferRollback, DB.Rollback, DB.StmtClose]
          | none =>
            right
            refine ⟨hnil, rfl, rfl, hx, rfl, ?_⟩
            simp [SavePosts, hlen, DB.BeginTx, hb, DB.ofTable, DB.PrepareContext, hp, hloop,
              DB.Commit, hc, deferRollback, DB.StmtClose]
        · left
          refine ⟨hnil, rfl, rfl, hx, ?_⟩
          obtain ⟨h1, ⟨calls, h2, h3⟩, h4⟩ := execLoop_spec f now posts 0
            { committed := t, tx := some t,
              trace := [DBCall.beginTx true, DBCall.prepare true] }
          cases hr : execLoop f now posts 0
            { committed := t, tx := some t,
              trace := [DBCall.beginTx true, DBCall.prepare true] } with
          | mk d3 r =>
            rw [hr] at h1 h2 h4
            cases r with
            | none =>
              exact absurd (fun j hj => by simpa using h4 rfl j hj) hx
            | some e =>
              refine ⟨e, calls, h3, ?_⟩
              cases d3 with
              | mk c3 tx3 tr3 =>
                simp only at h1 h2
                subst h1 h2
                simp [SavePosts, hlen, DB.BeginTx, hb, DB.ofTable, DB.PrepareContext, hp, hr,
                  deferRollback, DB.Rollback, DB.StmtClose]

theorem savePosts_noFault (now : Time) (t : Table) (posts : List Post) :
    (SavePosts Faults.none now (DB.ofTable t) posts).2 = none ∧
    (SavePosts Faults.none now (DB.ofTable t) posts).1.committed =
      upsertAll now t ((posts.filter (fun p => p.Link ≠ "")).map UpsertArgs.ofPost) := by
  have hw : posts.filter (fun p => p.Link ≠ "") = withLinks posts := rfl
  rw [hw]
  rcases SavePosts_shape Faults.none now t posts with ⟨hnil, h⟩ | ⟨_, e, he, _⟩ |
    ⟨_, _, e, he, _⟩ | ⟨_, _, _, hx, _⟩ | ⟨_, _, _, _, e, he, _⟩ | ⟨_, _, _, _, _, h⟩
  · subst hnil
    rw [h]
    simp [DB.ofTable, withLinks, upsertAll]
  · simp [Faults.none] at he
  · simp [Faults.none] at he
  · exact absurd (fun j _ => rfl) hx
  · simp [Faults.none] at he
  · rw [h]
    exact ⟨rfl, rfl⟩

/-- C7: for every failure of the database and every batch, `SavePosts` leaves no
transaction open; when it returns an error, no commit succeeded, `Rollback` was
called if the transaction was begun, and the committed table is the one before
the call; the committed table differs from the one before the call only when
`BeginTx`, `PrepareContext`, every `ExecContext` and `Commit` succeeded, and
then `SavePosts` returns no error; and when all of these succeed, `SavePosts`
returns no error and the committed table is the result of the upserts. -/
theorem SavePosts_atomic (f : Faults) (now : Time) (t : Table) (posts : List Post) :
    ((SavePosts f now (DB.ofTable t) posts).2 ≠ none →
      DBCall.commit true ∉ (SavePosts f now (DB.ofTable t) posts).1.trace ∧
      (DBCall.beginTx true ∈ (SavePosts f now (DB.ofTable t) posts).1.trace →
        DBCall.rollback ∈ (SavePosts f now (DB.ofTable t) posts).1.trace) ∧
      (SavePosts f now (DB.ofTable t) posts).1.committed = t) ∧
    ((SavePosts f now (DB.ofTable t) posts).1.committed ≠ t →
      (SavePosts f now (DB.ofTable t) posts).2 = none ∧
      f.begin = none ∧ f.prepare = none ∧
      (∀ j, j < (posts.filter (fun p => p.Link ≠ "")).length → f.exec j = none) ∧
      f.commit = none ∧
      DBCall.commit true ∈ (SavePosts f now (DB.ofTable t) posts).1.trace) ∧
    (SavePosts f now (DB.ofTable t) posts).1.tx = none ∧
    (f.begin = none → f.prepare = none →
      (∀ j, j < (posts.filter (fun p => p.Link ≠ "")).length → f.exec j = none) →
      f.commit = none →
      (SavePosts f now (DB.ofTable t) posts).2 = none ∧
      (SavePosts f now (DB.ofTable t) posts).1.committed =
        upsertAll now t ((posts.filter (fun p => p.Link ≠ "")).map UpsertArgs.ofPost)) := by
  have hw : posts.filter (fun p => p.Link ≠ "") = withLinks posts := rfl
  rw [hw]
  rcases SavePosts_shape f now t posts with ⟨hnil, h⟩ | ⟨_, e, he, h⟩ |
    ⟨_, hb, e, he, h⟩ | ⟨_, hb, hp, hx, e, calls, hcalls, h⟩ | ⟨_, hb, hp, hx, e, he, h⟩ |
    ⟨_, hb, hp, hx, hc, h⟩
  · subst hnil
    rw [h]
    simp [DB.ofTable, withLinks, upsertAll]
  · rw [h]
    simp [he]
  · rw [h]
    simp [he]
  · rw [h]
    refine ⟨fun _ => ⟨?_, fun _ => by simp, rfl⟩, fun hne => absurd rfl hne, rfl,
      fun _ _ hx1 _ => absurd hx1 hx⟩
    intro hmem
    simp only [List.mem_append, List.mem_cons, List.mem_singleton, List.not_mem_nil,
      or_false] at hmem
    rcases hmem with (h1 | h1) | h1
    · rcases h1 with h1 | h1 <;> cases h1
    · obtain ⟨a, ok, hc⟩ := hcalls _ h1
      cases hc
    · rcases h1 with h1 | h1 <;> cases h1
  · rw [h]
    refine ⟨fun _ => ⟨?_, fun _ => by simp, rfl⟩, fun hne => absurd rfl hne, rfl,
      fun _ _ _ hc => by simp [he] at hc⟩
    simp
  · rw [h]
    refine ⟨fun hne => absurd rfl hne, fun _ => ⟨rfl, hb, hp, hx, hc, by simp⟩, rfl,
      fun _ _ _ _ => ⟨rfl, rfl⟩⟩

/-- C7, an instance: the second statement of a batch fails. -/
theorem SavePosts_atomic_witness :
    (SavePosts faultySecondExec Time.zero (DB.ofTable sampleTable) sampleBatch).2 ≠ none ∧
    DBCall.rollback ∈
      (SavePosts faultySecondExec Time.zero (DB.ofTable sampleTable) sampleBatch).1.trace ∧
    (SavePosts faultySecondExec Time.zero (DB.ofTable sampleTable) sampleBatch).1.committed =
      sampleTable :=
  have h := (SavePosts_atomic faultySecondExec Time.zero sampleTable sampleBatch).1 (by decide)
  ⟨by decide, h.2.1 (by decide), h.2.2⟩

theorem filter_link_le_one (link : String) : ∀ rows : List Post,
    (rows.map (fun r => r.Link)).Nodup → (rows.filter (fun r => r.Link = link)).length ≤ 1 := by
  intro rows
  induction rows with
  | nil => intro _; simp
  | cons r rs ih =>
    intro hnd
    simp only [List.map_cons, List.nodup_cons] at hnd
    by_cases hr : r.Link = link
    · have hnone : rs.filter (fun r => r.Link = link) = [] := by
        rw [List.filter_eq_nil_iff]
        intro x hx hxl
        apply hnd.1
        simp only [List.mem_map]
        exact ⟨x, hx, by rw [hr]; simpa using hxl⟩
      simp [List.filter_cons, hr, hnone]
    · simp only [List.filter_cons, hr, decide_False, Bool.false_eq_true, if_false]
      exact ih hnd.2

theorem upsert_links (now : Time) (t : Table) (a : UpsertArgs) :
    (upsert now t a).rows.map (fun r => r.Link) =
      if t.rows.any (fun r => r.Link = a.link) then t.rows.map (fun r => r.Link)
      else t.rows.map (fun r => r.Link) ++ [a.link] := by
  unfold upsert
  split
  · simp only [List.map_map]
    apply List.map_congr_left
    intro r _
    simp only [Function.comp]
    split <;> rfl
  · simp

theorem upsert_unique (now : Time) (t : Table) (a : UpsertArgs) (hu : t.uniqueLinks) :
    (upsert now t a).uniqueLinks := by
  unfold Table.uniqueLinks at hu ⊢
  rw [upsert_links]
  split
  · exact hu
  · rename_i hany
    rw [List.nodup_append]
    refine ⟨hu, List.nodup_singleton _, ?_⟩
    intro x hx hx1
    simp only [List.mem_singleton] at hx1
    subst hx1
    apply hany
    simp only [List.mem_map] at hx
    obtain ⟨r, hr, hrl⟩ := hx
    rw [List.any_eq_true]
    exact ⟨r, hr, by simpa using hrl⟩

theorem upsert_withLink (now : Time) (t : Table) (a : UpsertArgs) (hu : t.uniqueLinks) :
    ∃ r, (upsert now t a).withLink a.link = [r] ∧ r.Title = a.title ∧
      r.Description = a.description ∧ r.PublishedAt = a.publishedAt ∧ r.Link = a.link ∧
      ∀ r0 ∈ t.withLink a.link, r.ID = r0.ID ∧ r.CreatedAt = r0.CreatedAt := by
  by_cases hany : t.rows.any (fun r => r.Link = a.link) = true
  · have hle := filter_link_le_one a.link t.rows hu
    rw [List.any_eq_true] at hany
    obtain ⟨x, hx, hxl⟩ := hany
    have hmem : x ∈ t.rows.filter (fun r => r.Link = a.link) := by
      simp only [List.mem_filter]
      exact ⟨hx, hxl⟩
    cases hf : t.rows.filter (fun r => r.Link = a.link) with
    | nil => rw [hf] at hmem; simp at hmem
    | cons r0 rest =>
      have hrest : rest = [] := by
        rw [hf] at hle
        simp only [List.length_cons] at hle
        exact List.length_eq_zero.mp (by omega)
      subst hrest
      have hr0 : r0.Link = a.link := by
        have : r0 ∈ t.rows.filter (fun r => r.Link = a.link) := by rw [hf]; simp
        simpa using (List.mem_filter.mp this).2
      have hany2 : t.rows.any (fun r => r.Link = a.link) = true := by
        rw [List.any_eq_true]; exact ⟨x, hx, hxl⟩
      refine ⟨{ r0 with Title := a.title, Description := a.description,
                        PublishedAt := a.publishedAt }, ?_, rfl, rfl, rfl, hr0, ?_⟩
      · simp only [Table.withLink, upsert, hany2, if_true, List.filter_map]
        have hcomp : ((fun r : Post => decide (r.Link = a.link)) ∘
            (fun r : Post => if r.Link = a.link then
              { r with Title := a.title, Description := a.description,
                       PublishedAt := a.publishedAt } else r)) =
            (fun r : Post => decide (r.Link = a.link)) := by
          funext r
          simp only [Function.comp]
          split <;> simp_all
        rw [hcomp, hf]
        simp [hr0]
      · intro r1 hr1
        simp only [Table.withLink, hf, List.mem_singleton] at hr1
        subst hr1
        exact ⟨rfl, rfl⟩
  · have hnone : t.rows.filter (fun r => r.Link = a.link) = [] := by
      rw [List.filter_eq_nil_iff]
      intro x hx hxl
      apply hany
      rw [List.any_eq_true]
      exact ⟨x, hx, hxl⟩
    refine ⟨{ ID := t.nextID, Title := a.title, Description := a.description, Link := a.link,
              PublishedAt := a.publishedAt, CreatedAt := now }, ?_, rfl, rfl, rfl, rfl, ?_⟩
    · simp only [Table.withLink, upsert, hany, List.filter_append, hnone]
      simp
      intro x hx hxl
      apply hany
      rw [List.any_eq_true]
      exact ⟨x, hx, by simpa using hxl⟩
    · intro r1 hr1
      simp only [Table.withLink, hnone] at hr1
      simp at hr1

theorem afterSave_single (now : Time) (t : Table) (p : Post) (hl : p.Link ≠ "") :
    (SavePosts Faults.none now (DB.ofTable t) [p]).2 = none ∧
    afterSave now t [p] = upsert now t (UpsertArgs.ofPost p) := by
  have h := savePosts_noFault now t [p]
  simp only [List.filter_cons, hl, ne_eq, not_false_eq_true, decide_True, if_true,
    List.filter_nil, List.map_cons, List.map_nil, upsertAll, List.foldl_cons,
    List.foldl_nil] at h
  exact ⟨h.1, h.2⟩

/-- C2: on a table with unique links and a database that does not fail, for
every post `p` with a non-empty link and every post `p'` with the same link,
`SavePosts [p]` at database time `now1` followed by `SavePosts [p']` at time
`now2` both succeed; after each call the table has exactly one row with that
link; the row after the second call has the id and `created_at` of the row after
the first call and the title, description and `published_at` of `p'`; and the
links are still unique. -/
theorem SavePosts_idempotent (now1 now2 : Time) (t : Table) (p p' : Post)
    (hu : t.uniqueLinks) (hl : p.Link ≠ "") (hsame : p'.Link = p.Link) :
    (SavePosts Faults.none now1 (DB.ofTable t) [p]).2 = none ∧
    (SavePosts Faults.none now2 (DB.ofTable (afterSave now1 t [p])) [p']).2 = none ∧
    (afterSave now2 (afterSave now1 t [p]) [p']).uniqueLinks ∧
    ∃ r1 r2, (afterSave now1 t [p]).withLink p.Link = [r1] ∧
      (afterSave now2 (afterSave now1 t [p]) [p']).withLink p.Link = [r2] ∧
      r2.ID = r1.ID ∧ r2.CreatedAt = r1.CreatedAt ∧
      r2.Title = p'.Title ∧ r2.Description = p'.Description ∧
      r2.PublishedAt = p'.PublishedAt := by
  have hl' : p'.Link ≠ "" := by rw [hsame]; exact hl
  obtain ⟨he1, ht1⟩ := afterSave_single now1 t p hl
  obtain ⟨he2, ht2⟩ := afterSave_single now2 (afterSave now1 t [p]) p' hl'
  have hu1 : (afterSave now1 t [p]).uniqueLinks := by
    rw [ht1]; exact upsert_unique now1 t _ hu
  have hu2 : (afterSave now2 (afterSave now1 t [p]) [p']).uniqueLinks := by
    rw [ht2]; exact upsert_unique now2 _ _ hu1
  obtain ⟨r1, hr1, _⟩ := upsert_withLink now1 t (UpsertArgs.ofPost p) hu
  obtain ⟨r2, hr2, h2t, h2d, h2p, _, h2keep⟩ :=
    upsert_withLink now2 (afterSave now1 t [p]) (UpsertArgs.ofPost p') hu1
  have hlink1 : (UpsertArgs.ofPost p).link = p.Link := rfl
  have hlink2 : (UpsertArgs.ofPost p').link = p.Link := hsame
  rw [hlink1, ← ht1] at hr1
  rw [hlink2, ← ht2] at hr2
  rw [hlink2] at h2keep
  have hkeep := h2keep r1 (by rw [hr1]; simp)
  exact ⟨he1, he2, hu2, r1, r2, hr1, hr2, hkeep.1, hkeep.2, h2t, h2d, h2p⟩

/-- C2, an instance: link `b` is saved twice into the table of the examples, at
different database times and with different titles. -/
theorem SavePosts_idempotent_witness :
    (sampleTable.uniqueLinks ∧ (linkPost "b" "first" 30).Link ≠ "" ∧
      (linkPost "b" "second" 40).Link = (linkPost "b" "first" 30).Link) ∧
    ∃ r1 r2, (afterSave Time.zero sampleTable [linkPost "b" "first" 30]).withLink "b" = [r1] ∧
      (afterSave (Time.mk 7 "UTC") (afterSave Time.zero sampleTable [linkPost "b" "first" 30])
        [linkPost "b" "second" 40]).withLink "b" = [r2] ∧
      r2.ID = r1.ID ∧ r2.CreatedAt = r1.CreatedAt ∧
      r2.Title = "second" ∧ r2.Description = "" ∧
      r2.PublishedAt = { nanos := 40, loc := "UTC" } :=
  ⟨⟨by decide, by decide, rfl⟩,
    (SavePosts_idempotent Time.zero (Time.mk 7 "UTC") sampleTable (linkPost "b" "first" 30)
      (linkPost "b" "second" 40) (by decide) (by decide) rfl).2.2.2⟩

theorem selectLatest_spec (t : Table) (n : Nat)
    (hd : (t.rows.map (fun r => r.PublishedAt.nanos)).Nodup) :
    ((t.rows.insertionSort laterFirst).take n).length = min n t.rows.length ∧
    ((t.rows.insertionSort laterFirst).take n).Pairwise
      (fun a b => b.PublishedAt.nanos < a.PublishedAt.nanos) ∧
    (∀ p ∈ (t.rows.insertionSort laterFirst).take n, p ∈ t.rows) ∧
    (∀ p ∈ t.rows, p ∉ (t.rows.insertionSort laterFirst).take n →
      ∀ q ∈ (t.rows.insertionSort laterFirst).take n,
        p.PublishedAt.nanos < q.PublishedAt.nanos) := by
  have hperm := List.perm_insertionSort laterFirst t.rows
  have hsorted : (t.rows.insertionSort laterFirst).Pairwise laterFirst :=
    List.sorted_insertionSort laterFirst t.rows
  have hnd : (t.rows.insertionSort laterFirst).Pairwise
      (fun a b => a.PublishedAt.nanos ≠ b.PublishedAt.nanos) := by
    have h1 : ((t.rows.insertionSort laterFirst).map (fun r => r.PublishedAt.nanos)).Nodup :=
      (hperm.map _).nodup_iff.mpr hd
    exact List.pairwise_map.mp h1
  have hstrict : (t.rows.insertionSort laterFirst).Pairwise
      (fun a b => b.PublishedAt.nanos < a.PublishedAt.nanos) := by
    refine (hsorted.and hnd).imp ?_
    intro a b hab
    exact lt_of_le_of_ne hab.1 (fun h => hab.2 h.symm)
  refine ⟨?_, ?_, ?_, ?_⟩
  · rw [List.length_take, hperm.length_eq]
  · exact hstrict.sublist (List.take_sublist _ _)
  · intro p hp
    exact hperm.subset (List.mem_of_mem_take hp)
  · intro p hp hnot q hq
    have hps : p ∈ t.rows.insertionSort laterFirst := hperm.symm.subset hp
    rw [← List.take_append_drop n (t.rows.insertionSort laterFirst)] at hps hstrict
    rcases List.mem_append.mp hps with h | h
    · exact absurd h hnot
    · exact (List.pairwise_append.mp hstrict).2.2 q hq p h

/-- C8: for every limit that is not positive `Latest` returns no posts and an
error, without a query on the database; for every positive limit, on a table
whose posts have pairwise distinct `published_at` and a database that does not
fail, `Latest` returns no error and issues one query with this limit, and the
posts returned are `min limit n` posts of the table, in strictly descending
order of `published_at`, every post of the table that is not returned being
earlier than every post returned. -/
theorem Latest_bounds (qfail : Option String) (d : DB) (limit : Int) :
    (limit ≤ 0 →
      (Latest qfail d limit).1 = [] ∧
      (Latest qfail d limit).2.1 = some "limit must be greater than zero" ∧
      (Latest qfail d limit).2.2 = d) ∧
    (0 < limit → (d.committed.rows.map (fun r => r.PublishedAt.nanos)).Nodup →
      (Latest none d limit).2.1 = none ∧
      (Latest none d limit).2.2.trace = d.trace ++ [DBCall.query limit true] ∧
      (Latest none d limit).1.length = min limit.toNat d.committed.rows.length ∧
      (Latest none d limit).1.Pairwise
        (fun a b => b.PublishedAt.nanos < a.PublishedAt.nanos) ∧
      (∀ p ∈ (Latest none d limit).1, p ∈ d.committed.rows) ∧
      (∀ p ∈ d.committed.rows, p ∉ (Latest none d limit).1 →
        ∀ q ∈ (Latest none d limit).1, p.PublishedAt.nanos < q.PublishedAt.nanos)) := by
  constructor
  · intro hle
    simp [Latest, hle]
  · intro hpos hd
    have hnot : ¬ limit ≤ 0 := by omega
    have hres : (Latest none d limit).1 =
        (d.committed.rows.insertionSort laterFirst).take limit.toNat := by
      simp [Latest, hnot, selectLatest]
    rw [hres]
    obtain ⟨h1, h2, h3, h4⟩ := selectLatest_spec d.committed limit.toNat hd
    refine ⟨?_, ?_, h1, h2, h3, h4⟩
    · simp [Latest, hnot]
    · simp [Latest, hnot]

/-- C8, an instance: limits 0 and -5, and limit 3 on five posts published at 30,
10, 50, 20, 40. -/
theorem Latest_bounds_witness :
    ((Latest none (DB.ofTable fivePosts) 0).2.1 = some "limit must be greater than zero" ∧
      (Latest none (DB.ofTable fivePosts) (-5)).2.1 = some "limit must be greater than zero" ∧
      (Latest none (DB.ofTable fivePosts) (-5)).2.2.trace = []) ∧
    ((0 : Int) < 3 ∧ (fivePosts.rows.map (fun r => r.PublishedAt.nanos)).Nodup) ∧
    (Latest none (DB.ofTable fivePosts) 3).1.length = 3 ∧
    (Latest none (DB.ofTable fivePosts) 3).1.map (fun r => r.Title) = ["C", "E", "A"] :=
  have h0 := (Latest_bounds none (DB.ofTable fivePosts) 0).1 (by decide)
  have h5 := (Latest_bounds none (DB.ofTable fivePosts) (-5)).1 (by decide)
  have h3 := (Latest_bounds none (DB.ofTable fivePosts) 3).2 (by decide) (by decide)
  ⟨⟨h0.2.1, h5.2.1, by rw [h5.2.2]; rfl⟩, ⟨by decide, by decide⟩, h3.2.2.1.trans (by decide),
    by decide⟩

/-! ## The fetcher -/

theorem parsePubDateLoop_first (timeParse : String → String → Option Time) (now : Time)
    (value : String) : ∀ (ls : List String) (j : Nat) (layout : String) (t : Time),
    ls[j]? = some layout → timeParse layout value = some t →
    (∀ (i : Nat) (l : String), i < j → ls[i]? = some l → timeParse l value = none) →
    parsePubDateLoop timeParse now value ls = (t, none) := by
  intro ls
  induction ls with
  | nil => intro j layout t h; simp at h
  | cons l ls ih =>
    intro j layout t hj hparse hbefore
    cases j with
    | zero =>
      simp only [List.getElem?_cons_zero, Option.some.injEq] at hj
      subst hj
      simp [parsePubDateLoop, hparse]
    | succ j =>
      have h0 : timeParse l value = none := hbefore 0 l (by omega) (by simp)
      simp only [parsePubDateLoop, h0]
      simp only [List.getElem?_cons_succ] at hj
      exact ih j layout t hj hparse
        (fun i l1 hi hl1 => hbefore (i + 1) l1 (by omega) (by simpa using hl1))

theorem parsePubDateLoop_none (timeParse : String → String → Option Time) (now : Time)
    (value : String) : ∀ ls : List String, (∀ l ∈ ls, timeParse l value = none) →
    parsePubDateLoop timeParse now value ls =
      (now.UTC, some ("unknown pubDate format: " ++ value)) := by
  intro ls
  induction ls with
  | nil => intro _; rfl
  | cons l ls ih =>
    intro h
    simp only [parsePubDateLoop, h l (List.mem_cons_self _ _)]
    exact ih (fun l1 hl1 => h l1 (List.mem_cons_of_mem _ hl1))

/-- C6: when the request succeeds with status 200 and the body decodes to a
document, `Fetch` returns no error and one entry per item, the entry at
position `k` made from the item at position `k` with its text fields trimmed.
Its `PublishedAt` is what `time.Parse` gives for the first layout, in the order
RFC1123Z, RFC1123, RFC822Z, RFC822, RFC3339, that parses the date string of the
item; when none of the five parses it is `time.Now().UTC()`. -/
theorem Fetch_date_fallback (w : World) (url : String) (resp : Response) (body : String)
    (doc : rssFeed) (hreq : w.newRequest url = none) (hdo : w.clientDo url = .ok resp)
    (hstatus : resp.StatusCode = 200) (hbody : resp.Body = .ok body)
    (hxml : w.xmlUnmarshal body = .ok doc) :
    layouts = ["Mon, 02 Jan 2006 15:04:05 -0700", "Mon, 02 Jan 2006 15:04:05 MST",
      "02 Jan 06 15:04 -0700", "02 Jan 06 15:04 MST", "2006-01-02T15:04:05Z07:00"] ∧
    ∃ items, Fetch w url = .ok items ∧ items.length = doc.Items.length ∧
      ∀ k x, doc.Items[k]? = some x →
        ∃ it, items[k]? = some it ∧
          it.Title = TrimSpace x.Title ∧ it.Description = TrimSpace x.Description ∧
          it.Link = TrimSpace x.Link ∧
          (∀ j layout t, layouts[j]? = some layout → w.timeParse layout x.PubDate = some t →
            (∀ (i : Nat) (l : String), i < j → layouts[i]? = some l →
              w.timeParse l x.PubDate = none) →
            it.PublishedAt = t) ∧
          ((∀ l ∈ layouts, w.timeParse l x.PubDate = none) →
            it.PublishedAt = (w.now k).UTC) := by
  refine ⟨rfl, entries w 0 doc.Items, Fetch_ok w url resp body doc hreq hdo hstatus hbody hxml,
    entries_length w _ _, ?_⟩
  intro k x hk
  refine ⟨entry w k x, by simpa using entries_getElem w doc.Items 0 k x hk, rfl, rfl, rfl,
    ?_, ?_⟩
  · intro j layout t hj hparse hbefore
    simp only [entry, parsePubDate]
    rw [parsePubDateLoop_first w.timeParse (w.now k) x.PubDate layouts j layout t hj hparse
      hbefore]
  · intro hnone
    simp only [entry, parsePubDate]
    rw [parsePubDateLoop_none w.timeParse (w.now k) x.PubDate layouts hnone]

/-- C6, an instance: the document of the examples, whose first date parses
under RFC 822 only and whose second date parses under no layout, the clock
reading 1001 in a local zone. -/
theorem Fetch_date_fallback_witness :
    ∃ items, Fetch (worldDoc sampleDoc) "http://b" = .ok items ∧ items.length = 3 ∧
      ∃ it0 it1, items[0]? = some it0 ∧ items[1]? = some it1 ∧
        it0.PublishedAt = { nanos := 5, loc := "MST" } ∧
        it1.PublishedAt = { nanos := 1001, loc := "UTC" } := by
  obtain ⟨items, hfetch, hlen, hall⟩ := (Fetch_date_fallback (worldDoc sampleDoc) "http://b"
    { StatusCode := 200, Body := .ok "<rss/>" } "<rss/>" sampleDoc rfl rfl rfl rfl rfl).2
  obtain ⟨it0, h0, _, _, _, hfirst, _⟩ := hall 0 _ rfl
  obtain ⟨it1, h1, _, _, _, _, hnone⟩ := hall 1 _ rfl
  refine ⟨items, hfetch, hlen, it0, it1, h0, h1, ?_, ?_⟩
  · refine hfirst 3 RFC822 { nanos := 5, loc := "MST" } rfl (by decide) ?_
    intro i l hi hl
    interval_cases i <;> simp only [layouts, List.getElem?_cons_zero, List.getElem?_cons_succ,
      Option.some.injEq] at hl <;> subst hl <;> decide
  · exact hnone (by decide)

/-! ## Configuration -/

theorem wrapInt64_id (x : Int) (h1 : -(2 : Int) ^ 63 ≤ x) (h2 : x < (2 : Int) ^ 63) :
    wrapInt64 x = x := by
  unfold wrapInt64
  norm_num at h1 h2 ⊢
  omega

theorem Load_period_small (readFile : String → Except String String)
    (unmarshal : String → Except String RawConfig) (path : String) (cfg : Config)
    (raw : RawConfig) (data : String) (hread : readFile path = .ok data)
    (hraw : unmarshal data = .ok raw) (hsmall : raw.RequestPeriod ≤ 153722867)
    (hload : Load readFile unmarshal path = .ok cfg) :
    cfg.RequestPeriod = raw.RequestPeriod * Minute ∧ 0 < cfg.RequestPeriod := by
  simp only [Load, hread, hraw] at hload
  split at hload
  · cases hload
  · split at hload
    · cases hload
    · rename_i hpos
      have hpos : 0 < raw.RequestPeriod := by omega
      have hw1 : wrapInt64 raw.RequestPeriod = raw.RequestPeriod :=
        wrapInt64_id _ (by norm_num; omega) (by norm_num; omega)
      have hw2 : wrapInt64 (raw.RequestPeriod * Minute) = raw.RequestPeriod * Minute :=
        wrapInt64_id _ (by unfold Minute; norm_num; omega) (by unfold Minute; norm_num; omega)
      have hp : 0 < raw.RequestPeriod * Minute := by unfold Minute; omega
      split at hload
      · cases hload
      · split at hload
        · simp only [Except.ok.injEq] at hload
          subst hload
          simp only [hw1, hw2]
          exact ⟨trivial, hp⟩
        · simp only [Except.ok.injEq] at hload
          subst hload
          simp only [hw1, hw2]
          exact ⟨trivial, hp⟩

/-- C9, the failing inputs: `Load` accepts a `request_period` of 153722868
minutes and returns a negative `RequestPeriod`, and accepts 9007199254740992
minutes and returns the period 0; on both `time.NewTicker` in `App.Run` panics.
For 153722867 minutes, the largest period whose nanoseconds fit in an `int64`,
the period is positive and the ticker is created. -/
theorem Load_period_overflow :
    loadSample 153722868 =
      .ok { RSS := ["http://a/feed"], RequestPeriod := -9223371993709551616,
            DatabaseURL := "postgres://db", APIHost := ":8080" } ∧
    mainTicker (loadSample 153722868) =
      .ok (some (.error "non-positive interval for NewTicker")) ∧
    loadSample 9007199254740992 =
      .ok { RSS := ["http://a/feed"], RequestPeriod := 0,
            DatabaseURL := "postgres://db", APIHost := ":8080" } ∧
    mainTicker (loadSample 9007199254740992) =
      .ok (some (.error "non-positive interval for NewTicker")) ∧
    loadSample 153722867 =
      .ok { RSS := ["http://a/feed"], RequestPeriod := 9223372020000000000,
            DatabaseURL := "postgres://db", APIHost := ":8080" } ∧
    mainTicker (loadSample 153722867) = .ok (some (.ok 9223372020000000000)) := by
  refine ⟨?_, ?_, ?_, ?_, ?_, ?_⟩ <;> rfl

/-! ## The read API -/

theorem digitChar_spec (d : Nat) (hd : d < 10) :
    digitVal (Nat.digitChar d) = some d ∧ isSpace (Nat.digitChar d) = false ∧
    Nat.digitChar d ≠ '-' ∧ Nat.digitChar d ≠ '+' := by
  interval_cases d <;> decide

theorem toDigitsCore_append : ∀ (fuel n : Nat) (ds : List Char),
    Nat.toDigitsCore 10 fuel n ds = Nat.toDigitsCore 10 fuel n [] ++ ds := by
  intro fuel
  induction fuel with
  | zero => intro n ds; simp [Nat.toDigitsCore]
  | succ fuel ih =>
    intro n ds
    simp only [Nat.toDigitsCore]
    split
    · simp
    · rw [ih (n / 10) (Nat.digitChar (n % 10) :: ds), ih (n / 10) [Nat.digitChar (n % 10)]]
      simp

theorem parseDigits_snoc : ∀ (cs : List Char) (acc : Nat) (c : Char),
    parseDigits acc (cs ++ [c]) =
      (parseDigits acc cs).bind (fun v => (digitVal c).map (fun d => v * 10 + d)) := by
  intro cs
  induction cs with
  | nil =>
    intro acc c
    simp only [List.nil_append, parseDigits, Option.some_bind]
    cases digitVal c <;> rfl
  | cons x xs ih =>
    intro acc c
    simp only [List.cons_append, parseDigits]
    cases digitVal x with
    | none => rfl
    | some d => exact ih _ c

theorem toDigitsCore_spec : ∀ (fuel n : Nat), n < fuel →
    parseDigits 0 (Nat.toDigitsCore 10 fuel n []) = some n ∧
    Nat.toDigitsCore 10 fuel n [] ≠ [] ∧
    ∀ c ∈ Nat.toDigitsCore 10 fuel n [], isSpace c = false ∧ c ≠ '-' ∧ c ≠ '+' := by
  intro fuel
  induction fuel with
  | zero => intro n h; omega
  | succ fuel ih =>
    intro n hn
    have hd := digitChar_spec (n % 10) (Nat.mod_lt _ (by decide))
    simp only [Nat.toDigitsCore]
    split
    · rename_i hzero
      have hlt : n < 10 := by omega
      have hmod : n % 10 = n := Nat.mod_eq_of_lt hlt
      rw [hmod] at hd ⊢
      refine ⟨by simp [parseDigits, hd.1], by simp, ?_⟩
      intro c hc
      simp only [List.mem_singleton] at hc
      subst hc
      exact hd.2
    · rename_i hne
      rw [toDigitsCore_append]
      obtain ⟨h1, _, h3⟩ := ih (n / 10) (by omega)
      refine ⟨?_, by simp, ?_⟩
      · rw [parseDigits_snoc, h1, hd.1]
        simp only [Option.some_bind, Option.map_some', Option.some.injEq]
        omega
      · intro c hc
        rcases List.mem_append.mp hc with hc | hc
        · exact h3 c hc
        · simp only [List.mem_singleton] at hc
          subst hc
          exact hd.2

theorem dropWhile_spaces (ws cs : List Char) (hws : ∀ c ∈ ws, isSpace c = true)
    (hcs : ∀ c, cs.head? = some c → isSpace c = false) :
    (ws ++ cs).dropWhile isSpace = cs := by
  induction ws with
  | nil =>
    cases cs with
    | nil => rfl
    | cons c cs => simp [List.dropWhile, hcs c rfl]
  | cons w ws ih =>
    simp only [List.cons_append, List.dropWhile, hws w (List.mem_cons_self _ _)]
    exact ih (fun c hc => hws c (List.mem_cons_of_mem _ hc))

theorem TrimSpace_padded (pre cs post : List Char) (hpre : ∀ c ∈ pre, isSpace c = true)
    (hpost : ∀ c ∈ post, isSpace c = true) (hcs : ∀ c ∈ cs, isSpace c = false) :
    TrimSpace (String.mk (pre ++ cs ++ post)) = String.mk cs := by
  have h1 : (pre ++ cs ++ post).dropWhile isSpace = (cs ++ post).dropWhile isSpace := by
    cases cs with
    | nil =>
      have hall : ∀ c ∈ pre ++ post, isSpace c = true := by
        intro c hc
        rcases List.mem_append.mp hc with h | h
        · exact hpre c h
        · exact hpost c h
      have e1 := dropWhile_spaces (pre ++ post) [] hall (by simp)
      have e2 := dropWhile_spaces post [] hpost (by simp)
      simp only [List.append_nil] at e1 e2
      simp [e1, e2]
    | cons c cs =>
      have hc : isSpace c = false := hcs c (List.mem_cons_self _ _)
      rw [List.append_assoc, dropWhile_spaces pre _ hpre (by simp [hc])]
      simp [List.dropWhile, hc]
  have h2 : (cs ++ post).dropWhile isSpace = if cs = [] then [] else cs ++ post := by
    cases cs with
    | nil =>
      have e2 := dropWhile_spaces post [] hpost (by simp)
      simpa using e2
    | cons c cs =>
      have hc : isSpace c = false := hcs c (List.mem_cons_self _ _)
      simp [List.dropWhile, hc]
  unfold TrimSpace
  simp only [h1, h2]
  by_cases hnil : cs = []
  · subst hnil; simp
  · simp only [hnil, if_false, List.reverse_append]
    rw [dropWhile_spaces post.reverse cs.reverse
      (fun c hc => hpost c (List.mem_reverse.mp hc))
      (fun c hc => hcs c (List.mem_reverse.mp (List.mem_of_mem_head? hc)))]
    simp

theorem Atoi_toDigits (n : Nat) :
    Atoi (String.mk (Nat.toDigits 10 n)) = if n < 2 ^ 63 then some (n : Int) else none := by
  obtain ⟨h1, h2, h3⟩ := toDigitsCore_spec (n + 1) n (by omega)
  have hneg : ¬ (Nat.toDigitsCore 10 (n + 1) n []).head? = some '-' :=
    fun h => (h3 _ (List.mem_of_mem_head? h)).2.1 rfl
  have hplus : ¬ (Nat.toDigitsCore 10 (n + 1) n []).head? = some '+' :=
    fun h => (h3 _ (List.mem_of_mem_head? h)).2.2 rfl
  have hr1 : -(9223372036854775808 : Int) ≤ (n : Int) := by
    have : (0 : Int) ≤ (n : Int) := Int.ofNat_nonneg n
    omega
  unfold Atoi
  simp only [Nat.toDigits, hneg, hplus, or_self, if_false, decide_False, h1, h2]
  by_cases hn : n < 9223372036854775808
  · have hr2 : (n : Int) < 9223372036854775808 := by omega
    simp [hr1, hr2, hn]
  · have hr2 : ¬ (n : Int) < 9223372036854775808 := by omega
    simp [hr2, hn]

theorem newsLimit_eq (s : Server) (r : Request) :
    newsLimit s r =
      if r.limitParam = "" then s.defaultNum
      else
        match Atoi (TrimSpace r.limitParam) with
        | some n => if n > 0 then n else s.defaultNum
        | none => s.defaultNum := by
  unfold newsLimit Request.limitParam
  by_cases hp : r.pathLimit = ""
  · by_cases hq : r.queryLimit = ""
    · simp [hp, hq]
    · simp [hp, hq]
  · simp [hp]

theorem Atoi_empty : Atoi (TrimSpace "") = none := by decide

theorem decimalInt_empty : decimalInt (TrimSpace "") = none := by decide

theorem Atoi_decimalInt (s : String) :
    Atoi s =
      match decimalInt s with
      | some v =>
        if -(9223372036854775808 : Int) ≤ v ∧ v < 9223372036854775808 then some v else none
      | none => none := by
  unfold Atoi decimalInt
  simp only
  generalize (if s.data.head? = some '-' ∨ s.data.head? = some '+' then s.data.tail
    else s.data) = ds
  by_cases hds : ds = []
  · simp [hds]
  · simp only [hds, if_false]
    cases parseDigits 0 ds with
    | none => rfl
    | some n => norm_num

theorem handleNews_eq (s : Server) (latest : Int → List Post × Option String) (r : Request) :
    handleNews s latest r =
      (newsLimit s r,
        match latest (newsLimit s r) with
        | (_, some e) => (500, Except.error e)
        | (posts, none) => (200, Except.ok posts)) := by
  unfold handleNews
  simp only
  rcases latest (newsLimit s r) with ⟨ps, _ | e⟩ <;> rfl

theorem newsLimit_pos (r : Request) : 0 < newsLimit New r := by
  rw [newsLimit_eq]
  split
  · decide
  · split
    · split
      · assumption
      · decide
    · decide

/-- C10, as amended: for every store and every request, `handleNews` calls
`store.Latest` with its limit and answers from the result of that call, and the
limit is positive, so that a `Postgres` store that does not fail is never
stopped by its guard on the limit and answers 200 with the latest posts. The
limit is 10 when the limit parameter (the path parameter when that is not empty,
else the query parameter) is empty, when `strconv.Atoi` fails on the trimmed
parameter, and when `Atoi` gives an integer that is not positive; it is `n` when
`Atoi` gives a positive `n`. Against the integer the parameter denotes: the
limit is the one the specification states whenever that is below `2 ^ 63`, and
is 10 when the parameter denotes an integer of `2 ^ 63` or more, on which
`Atoi` fails; so for the decimal notation of a natural number `n` with white
space around it the limit is `n` when `0 < n < 2 ^ 63` and 10 otherwise. -/
theorem handleNews_limit (latest : Int → List Post × Option String) (r : Request) :
    (handleNews New latest r).2 =
      (match latest (handleNews New latest r).1 with
        | (_, some e) => (500, Except.error e)
        | (posts, none) => (200, Except.ok posts)) ∧
    (∀ d : DB, handleNews New (storeLatest d) r =
      ((handleNews New latest r).1, 200,
        Except.ok (selectLatest d.committed (handleNews New latest r).1))) ∧
    0 < (handleNews New latest r).1 ∧
    (r.limitParam = "" → (handleNews New latest r).1 = 10) ∧
    (Atoi (TrimSpace r.limitParam) = none → (handleNews New latest r).1 = 10) ∧
    (∀ n, Atoi (TrimSpace r.limitParam) = some n → n ≤ 0 →
      (handleNews New latest r).1 = 10) ∧
    (∀ n, Atoi (TrimSpace r.limitParam) = some n → 0 < n →
      (handleNews New latest r).1 = n) ∧
    (claimedLimit r < 2 ^ 63 → (handleNews New latest r).1 = claimedLimit r) ∧
    (2 ^ 63 ≤ claimedLimit r → (handleNews New latest r).1 = 10) ∧
    (∀ (n : Nat) (pre post : List Char),
      (∀ c ∈ pre, isSpace c = true) → (∀ c ∈ post, isSpace c = true) →
      r.limitParam = String.mk (pre ++ Nat.toDigits 10 n ++ post) →
      (handleNews New latest r).1 = if 0 < n ∧ n < 2 ^ 63 then (n : Int) else 10) := by
  have hfst : (handleNews New latest r).1 = newsLimit New r := by
    rw [handleNews_eq]
  have hsome : ∀ n, Atoi (TrimSpace r.limitParam) = some n → r.limitParam ≠ "" := by
    intro n hn hempty
    rw [hempty, Atoi_empty] at hn
    cases hn
  refine ⟨?_, ?_, ?_⟩
  · rw [hfst, handleNews_eq]
  · intro d
    have hpos := newsLimit_pos r
    have hnot : ¬ newsLimit New r ≤ 0 := by omega
    rw [hfst, handleNews_eq]
    simp [storeLatest, Latest, hnot]
  rw [hfst]
  refine ⟨newsLimit_pos r, ?_⟩
  rw [newsLimit_eq]
  refine ⟨?_, ?_, ?_, ?_, ?_, ?_, ?_⟩
  · intro h
    simp [h, New]
  · intro h
    simp [h, New]
  · intro n hn hle
    have hnot : ¬ n > 0 := by omega
    simp [hsome n hn, hn, hnot, New]
  · intro n hn hpos
    simp [hsome n hn, hn, hpos]
  · intro hclaim
    unfold claimedLimit at hclaim ⊢
    by_cases hempty : r.limitParam = ""
    · simp [hempty, decimalInt_empty, New]
    · simp only [hempty, if_false, Atoi_decimalInt]
      cases hdec : decimalInt (TrimSpace r.limitParam) with
      | none => simp [New]
      | some v =>
        simp only [hdec] at hclaim
        by_cases hv : 0 < v
        · simp only [hv, if_true] at hclaim ⊢
          have hlt : v < 9223372036854775808 := by norm_num at hclaim; exact hclaim
          have hge : -(9223372036854775808 : Int) ≤ v := by omega
          simp [hlt, hge, hv]
        · simp only [hv, if_false]
          by_cases hrange : -(9223372036854775808 : Int) ≤ v ∧ v < 9223372036854775808
          · simp [hrange, hv, New]
          · simp [hrange, New]
  · intro hclaim
    unfold claimedLimit at hclaim
    by_cases hempty : r.limitParam = ""
    · simp [hempty, New]
    · simp only [hempty, if_false, Atoi_decimalInt]
      cases hdec : decimalInt (TrimSpace r.limitParam) with
      | none => simp [New]
      | some v =>
        simp only [hdec] at hclaim
        by_cases hv : 0 < v
        · simp only [hv, if_true] at hclaim
          have hnlt : ¬ v < 9223372036854775808 := by norm_num at hclaim; omega
          simp [hnlt, New]
        · simp only [hv, if_false] at hclaim
          norm_num at hclaim
  · intro n pre post hpre hpost hparam
    obtain ⟨_, hne, hdig⟩ := toDigitsCore_spec (n + 1) n (by omega)
    have htrim : TrimSpace r.limitParam = String.mk (Nat.toDigits 10 n) := by
      rw [hparam]
      exact TrimSpace_padded pre _ post hpre hpost (fun c hc => (hdig c hc).1)
    have hnonempty : r.limitParam ≠ "" := by
      rw [hparam]
      intro h
      have hdata : pre ++ Nat.toDigits 10 n ++ post = [] := congrArg String.data h
      have h1 := (List.append_eq_nil.mp hdata).1
      exact hne (List.append_eq_nil.mp h1).2
    simp only [hnonempty, if_false, htrim, Atoi_toDigits n]
    by_cases hlt : n < 9223372036854775808
    · by_cases hpos : 0 < n
      · have hposInt : (0 : Int) < (n : Int) := by omega
        simp [hlt, hpos, hposInt]
      · have hzero : n = 0 := by omega
        subst hzero
        simp [New]
    · simp [hlt, New]

/-- C10 as amended, an instance: on the table of five posts, a query parameter
with blanks gives the three latest posts, a path parameter overrides the query,
and parameters that are absent, zero, negative or not a number give the limit
10 and the answer 200. -/
theorem handleNews_limit_witness :
    (handleNews New (storeLatest (DB.ofTable fivePosts))
        { pathLimit := "", queryLimit := " 3 " }).1 = 3 ∧
    (handleNews New (storeLatest (DB.ofTable fivePosts))
        { pathLimit := "", queryLimit := " 3 " }).2 =
      (200, Except.ok [linkPost "c" "C" 50, linkPost "e" "E" 40, linkPost "a" "A" 30]) ∧
    (handleNews New emptyLatest { pathLimit := "2", queryLimit := "25" }).1 = 2 ∧
    (handleNews New emptyLatest { pathLimit := "", queryLimit := "" }).1 = 10 ∧
    (handleNews New emptyLatest { pathLimit := "0", queryLimit := "25" }).1 = 10 ∧
    (handleNews New emptyLatest { pathLimit := "-5", queryLimit := "" }).1 = 10 ∧
    (handleNews New emptyLatest { pathLimit := "ten", queryLimit := "" }).1 = 10 ∧
    (handleNews New (storeLatest (DB.ofTable fivePosts))
        { pathLimit := "-5", queryLimit := "" }).2.1 = 200 :=
  have h3 := handleNews_limit (storeLatest (DB.ofTable fivePosts))
    { pathLimit := "", queryLimit := " 3 " }
  have hlim : (handleNews New (storeLatest (DB.ofTable fivePosts))
      { pathLimit := "", queryLimit := " 3 " }).1 = 3 :=
    h3.2.2.2.2.2.2.1 3 (by decide) (by decide)
  ⟨hlim,
    (congrArg Prod.snd (h3.2.1 (DB.ofTable fivePosts))).trans (by rw [hlim]; rfl),
    (handleNews_limit emptyLatest { pathLimit := "2", queryLimit := "25" }).2.2.2.2.2.2.1 2
      (by decide) (by decide),
    (handleNews_limit emptyLatest { pathLimit := "", queryLimit := "" }).2.2.2.1 (by decide),
    (handleNews_limit emptyLatest { pathLimit := "0", queryLimit := "25" }).2.2.2.2.2.1 0
      (by decide) (by decide),
    (handleNews_limit emptyLatest { pathLimit := "-5", queryLimit := "" }).2.2.2.2.2.1 (-5)
      (by decide) (by decide),
    (handleNews_limit emptyLatest { pathLimit := "ten", queryLimit := "" }).2.2.2.2.1
      (by decide),
    congrArg (fun x => x.2.1) ((handleNews_limit emptyLatest
      { pathLimit := "-5", queryLimit := "" }).2.1 (DB.ofTable fivePosts))⟩

/-- C10 as stated fails: the path parameter `9223372036854775808` is the
positive integer `2 ^ 63`, so the limit stated is that integer, but
`strconv.Atoi` fails on it and `handleNews` passes the limit 10. -/
theorem handleNews_limit_counterexample :
    hugeLimitRequest.limitParam = String.mk (Nat.toDigits 10 (2 ^ 63)) ∧
    decimalInt (TrimSpace hugeLimitRequest.limitParam) = some 9223372036854775808 ∧
    claimedLimit hugeLimitRequest = 9223372036854775808 ∧
    (handleNews New emptyLatest hugeLimitRequest).1 = 10 ∧
    (handleNews New emptyLatest hugeLimitRequest).1 ≠ claimedLimit hugeLimitRequest := by
  refine ⟨by decide, by decide, by decide, by decide, by decide⟩

end GoNews
